import Mathlib

/-!
Verification of the Deckode export engine against its specification.

The TypeScript sources are shallowly embedded over `List Char` (called `Str`
below): pure functions become Lean functions, the regex-driven scanners become
explicit recursive scanners implementing exactly the semantics of the concrete
regular expressions used by the source, and the stateful jsPDF drawing surface
becomes an explicit command list.  Effectful drawing (fetch, image embedding)
is modelled in the `Except` monad over an environment of external collaborators.

Namespaces mirror the source modules:
  * `Deckode.MD`    — src/utils/markdownParser.ts (parseInlineMarkdown, parseMarkdownLines)
  * `Deckode.Shiki` — src/utils/shikiTokenParser.ts (parseShikiHtml, unescapeHtml)
  * `Deckode.Pdf`   — src/components/export/pdfNativeExport.ts
-/

set_option maxRecDepth 10000

namespace Deckode

/-- Strings are modelled as lists of characters. -/
abbrev Str := List Char

/-- JavaScript whitespace (`\s`, `String.prototype.trim`), ASCII fragment. -/
def isWs (c : Char) : Bool :=
  c == ' ' || c == '\t' || c == '\n' || c == '\r' || c == '\x0b' || c == '\x0c'

/-- `String.prototype.trim`: strip leading and trailing whitespace. -/
def trim (s : Str) : Str :=
  ((s.dropWhile isWs).reverse.dropWhile isWs).reverse

/-- `source.split("\n")` : splitting on newline; `"".split` gives `[""]`. -/
def splitNl : Str → List Str
  | [] => [[]]
  | c :: rest =>
    if c = '\n' then [] :: splitNl rest
    else
      match splitNl rest with
      | [] => [[c]]
      | a :: as => (c :: a) :: as

/-- `lines.join("\n")`. -/
def joinNl : List Str → Str
  | [] => []
  | [l] => l
  | l :: ls => l ++ '\n' :: joinNl ls

/-- Hexadecimal digit, as in the character class `[0-9a-fA-F]`. -/
def isHexDigit (c : Char) : Bool :=
  ('0' ≤ c && c ≤ '9') || ('a' ≤ c && c ≤ 'f') || ('A' ≤ c && c ≤ 'F')

/-! ## src/utils/markdownParser.ts — inline run tokenizer and line parser

The inline tokenizer is driven by the single global regex
`(\*\*(.+?)\*\*)|(\*(.+?)\*)|(`…`)|(\$(.+?)\$)` executed in a loop.  We embed
the regex by an explicit scanner with exactly its semantics: at each start
position the four alternatives are tried in order; `(.+?)` is a non-greedy,
non-empty run of non-newline characters ended by the closing marker; the
leftmost matching start position wins, and scanning resumes after the match.
-/

namespace MD

/-- One styled run of text (`TextRun` in markdownParser.ts). -/
structure TextRun where
  text : Str
  bold : Bool
  italic : Bool
  code : Bool
  math : Bool
deriving DecidableEq, Repr

/-- The four delimiter alternatives of the inline regex, in alternation order. -/
inductive Delim | bold | italic | code | math
deriving DecidableEq, Repr

/-- The delimiter marker: it both opens and closes a span. -/
def Delim.marker : Delim → Str
  | .bold => ['*', '*']
  | .italic => ['*']
  | .code => "`".data
  | .math => ['$']

/-- The run built for a span matched by the given alternative. -/
def Delim.toRun : Delim → Str → TextRun
  | .bold, t => ⟨t, true, false, false, false⟩
  | .italic, t => ⟨t, false, true, false, false⟩
  | .code, t => ⟨t, false, false, true, false⟩
  | .math, t => ⟨t, false, false, false, true⟩

/-- `(.+?)close`: the shortest non-empty newline-free prefix followed by the
closing marker.  Returns the captured text and the rest after the close,
together with a length bound used for termination of the scan. -/
def findInner (close : Str) : (cs : Str) → Option (Str × {rem : Str // rem.length < cs.length})
  | [] => none
  | c :: rest =>
    if c = '\n' then none
    else if close.isPrefixOf rest then
      some ([c], ⟨rest.drop close.length, by simp [List.length_drop]; omega⟩)
    else
      match findInner close rest with
      | some (inner, ⟨rem, hr⟩) => some (c :: inner, ⟨rem, by simp; omega⟩)
      | none => none

/-- Try one alternative at the current position. -/
def tryDelim (d : Delim) (cs : Str) :
    Option (Delim × Str × {rem : Str // rem.length < cs.length}) :=
  if d.marker.isPrefixOf cs then
    match findInner d.marker (cs.drop d.marker.length) with
    | some (inner, ⟨rem, hr⟩) =>
      some (d, inner, ⟨rem, lt_of_lt_of_le hr (by simp [List.length_drop])⟩)
    | none => none
  else none

/-- Try the alternatives in order at the current position. -/
def tryAt (ds : List Delim) (cs : Str) :
    Option (Delim × Str × {rem : Str // rem.length < cs.length}) :=
  match ds with
  | [] => none
  | d :: ds' =>
    match tryDelim d cs with
    | some r => some r
    | none => tryAt ds' cs

/-- `re.exec`: the leftmost match.  Returns the gap before the match, the
matched alternative, its captured text and the remainder after the match. -/
def findFrom (ds : List Delim) :
    (cs : Str) → Option (Str × Delim × Str × {rem : Str // rem.length < cs.length})
  | [] => none
  | c :: rest =>
    match tryAt ds (c :: rest) with
    | some (d, inner, rem) => some ([], d, inner, rem)
    | none =>
      match findFrom ds rest with
      | some (gap, d, inner, ⟨rem, hr⟩) => some (c :: gap, d, inner, ⟨rem, by simp; omega⟩)
      | none => none

/-- A plain run: all flags false. -/
def plainRun (t : Str) : TextRun := ⟨t, false, false, false, false⟩

/-- The `while ((m = re.exec(text)) !== null)` loop: emit a plain run for each
non-empty gap, a styled run for each match, and a plain run for the tail. -/
def scanRuns (ds : List Delim) (cs : Str) : List TextRun :=
  match findFrom ds cs with
  | none => if cs = [] then [] else [plainRun cs]
  | some (gap, d, inner, ⟨rem, _⟩) =>
    (if gap = [] then [] else [plainRun gap]) ++ d.toRun inner :: scanRuns ds rem
termination_by cs.length

/-- The alternation order of markdownParser.ts: bold, italic, code, math. -/
def mdDelims : List Delim := [.bold, .italic, .code, .math]

/-- The concatenation of a run list's texts. -/
def joinRunTexts (rs : List TextRun) : Str := (rs.map TextRun.text).flatten

/-- `parseInlineMarkdown` (markdownParser.ts): if the loop produced no runs
(the empty line), a single plain run holding the whole text is emitted. -/
def parseInlineMarkdown (text : Str) : List TextRun :=
  match scanRuns mdDelims text with
  | [] => [plainRun text]
  | rs => rs

/-- One parsed logical line (`ParsedLine` in markdownParser.ts). -/
structure ParsedLine where
  runs : List TextRun
  indent : Int
  bullet : Bool
  fontScale : ℚ
  isBold : Bool
  blockMath : Option Str
deriving DecidableEq, Repr

/-- The heading regex `^(#{1,3})\s+(.+)$` applied to a trimmed, newline-free
line: `n` leading `#` with `1 ≤ n ≤ 3`, then at least one whitespace character,
then the remaining text with its leading whitespace consumed greedily.
On the trimmed lines the parser feeds it, this is exactly the JS regex. -/
def headingMatch (t : Str) : Option (Nat × Str) :=
  let n := (t.takeWhile (· = '#')).length
  if 1 ≤ n ∧ n ≤ 3 then
    match t.drop n with
    | [] => none
    | c :: rest =>
      if isWs c then
        let txt := (c :: rest).dropWhile isWs
        if txt = [] then none else some (n, txt)
      else none
  else none

/-- The single-line block-math regex `^\$\$(.+)\$\$$` on a trimmed line:
`$$`, a non-empty newline-free middle, `$$`. -/
def singleMath (t : Str) : Option Str :=
  if 5 ≤ t.length ∧ (['$', '$'].isPrefixOf t) ∧ (['$', '$'].isSuffixOf t) then
    let mid := ((t.drop 2).dropLast).dropLast
    if mid.all (· ≠ '\n') then some mid else none
  else none

/-- The heading scale table `{1: 1.8, 2: 1.4, 3: 1.1}`. -/
def headingScale (n : Nat) : ℚ := if n = 1 then 1.8 else if n = 2 then 1.4 else 1.1

/-- Parser state: emitted lines so far and the open block-math buffer
(`mathBuf`), `none` when not inside a `$$ … $$` block. -/
structure PState where
  parsed : List ParsedLine
  mathBuf : Option (List Str)
deriving DecidableEq, Repr

/-- The body of `parseMarkdownLines`' per-line loop, in source order:
`$$` toggle, block-math accumulation, single-line `$$…$$`, blank skip,
heading, list item (sentinel indent `-1`), plain paragraph. -/
def parseStep (st : PState) (line : Str) : PState :=
  let t := trim line
  if t = ['$', '$'] then
    match st.mathBuf with
    | none => ⟨st.parsed, some []⟩
    | some buf => ⟨st.parsed ++ [⟨[], 0, false, 1, false, some (joinNl buf)⟩], none⟩
  else
    match st.mathBuf with
    | some buf => ⟨st.parsed, some (buf ++ [line])⟩
    | none =>
      match singleMath t with
      | some m => ⟨st.parsed ++ [⟨[], 0, false, 1, false, some m⟩], none⟩
      | none =>
        if t = [] then st
        else
          match headingMatch t with
          | some (lvl, txt) =>
            ⟨st.parsed ++
              [⟨parseInlineMarkdown txt, 0, false, headingScale lvl, decide (lvl ≤ 2), none⟩],
              none⟩
          | none =>
            if ['-', ' '].isPrefixOf t ∨ ['*', ' '].isPrefixOf t then
              ⟨st.parsed ++ [⟨parseInlineMarkdown (t.drop 2), -1, true, 1, false, none⟩], none⟩
            else
              ⟨st.parsed ++ [⟨parseInlineMarkdown t, 0, false, 1, false, none⟩], none⟩

/-- Fold the per-line step over a list of physical lines. -/
def parseLines (ls : List Str) : PState := ls.foldl parseStep ⟨[], none⟩

/-- `parseMarkdownLines` (markdownParser.ts): split on newlines, classify each
line; an unterminated math buffer is discarded at the end of the loop. -/
def parseMarkdownLines (source : Str) : List ParsedLine :=
  (parseLines (splitNl source)).parsed

end MD

/-! ## src/utils/exportUtils.ts — shared defaults -/

def DEFAULT_BG : Str := "#0f172a".data
def DEFAULT_TEXT_COLOR : Str := "#ffffff".data
def DEFAULT_TEXT_SIZE : ℚ := 24
def DEFAULT_TEXT_FONT : Str := "Inter, system-ui, sans-serif".data
def DEFAULT_LINE_HEIGHT : ℚ := 1.5
def DEFAULT_CODE_SIZE : ℚ := 16
def DEFAULT_CODE_BG : Str := "#1e1e2e".data
def DEFAULT_CODE_FG : Str := "#cdd6f4".data
def DEFAULT_CODE_RADIUS : ℚ := 8
def DEFAULT_CODE_THEME : Str := "github-dark".data
def DEFAULT_TABLE_SIZE : ℚ := 14

/-! ## src/utils/shikiTokenParser.ts — highlighter markup → colored tokens

The parser is regex-driven; each concrete regex is embedded by a scanner with
exactly its semantics.  Scanners return remainders bundled with a length bound,
which makes the top-level scanning loops well-founded by construction. -/

namespace Shiki

/-- A colored code token (`CodeToken` in shikiTokenParser.ts). -/
structure CodeToken where
  text : Str
  color : Str
deriving DecidableEq, Repr

/-- `s.replace(/pat/g, rep)` for a literal pattern `p :: ps`: leftmost,
non-overlapping occurrences, scanning left to right. -/
def replaceAll (p : Char) (ps : Str) (rep : Str) : (s : Str) → Str
  | [] => []
  | c :: rest =>
    if (p :: ps).isPrefixOf (c :: rest) then rep ++ replaceAll p ps rep (rest.drop ps.length)
    else c :: replaceAll p ps rep rest
termination_by s => s.length
decreasing_by
  · simp [List.length_drop]; omega
  · simp

/-- `unescapeHtml` (shikiTokenParser.ts): the six chained global replaces,
applied in source order (`&amp;` first, `&#x27;` last). -/
def unescapeHtml (s : Str) : Str :=
  let s1 := replaceAll '&' "amp;".data ['&'] s
  let s2 := replaceAll '&' "lt;".data ['<'] s1
  let s3 := replaceAll '&' "gt;".data ['>'] s2
  let s4 := replaceAll '&' "quot;".data ['"'] s3
  let s5 := replaceAll '&' "#39;".data ['\''] s4
  replaceAll '&' "#x27;".data ['\''] s5

/-- Find the first occurrence of the literal pattern `p :: ps`; return the text
before it and the remainder after it (with a length bound). -/
def splitFirstSub (p : Char) (ps : Str) : (s : Str) → Option (Str × {rem : Str // rem.length < s.length})
  | [] => none
  | c :: rest =>
    if (p :: ps).isPrefixOf (c :: rest) then
      some ([], ⟨rest.drop ps.length, by simp [List.length_drop]; omega⟩)
    else
      match splitFirstSub p ps rest with
      | some (a, ⟨b, h⟩) => some (c :: a, ⟨b, by simp; omega⟩)
      | none => none

/-- The split result without the length bound (projection used to transport
equalities about `splitFirstSub` across equal arguments). -/
def splitFirstVal (p : Char) (ps s : Str) : Option (Str × Str) :=
  (splitFirstSub p ps s).map (fun pr => (pr.1, pr.2.val))

/-- `str.split(/pat/)` for the literal pattern `p :: ps`. -/
def splitOnSub (p : Char) (ps : Str) : (s : Str) → List Str
  | [] => [[]]
  | c :: rest =>
    if (p :: ps).isPrefixOf (c :: rest) then
      [] :: splitOnSub p ps (rest.drop ps.length)
    else
      match splitOnSub p ps rest with
      | [] => [[c]]
      | a :: as => (c :: a) :: as
termination_by s => s.length
decreasing_by
  · simp [List.length_drop]; omega
  · simp

/-- `.replace(/<[^>]*>/g, "")`: an unclosed `<` is left in place, a closed tag
is removed wholesale (its interior may contain further `<`). -/
def stripTags : (s : Str) → Str
  | [] => []
  | c :: rest =>
    if c = '<' then
      match splitFirstSub '>' [] rest with
      | some (_, ⟨after, _h⟩) => stripTags after
      | none => c :: stripTags rest
    else c :: stripTags rest
termination_by s => s.length
decreasing_by
  · simp; omega
  · simp
  · simp

def lineMarker : Str := "<span class=\"line\">".data
def spanClose : Str := "</span>".data
def colorPre : Str := "<span style=\"color:".data

/-- `.replace(/<\/span>\s*$/, "")`: drop the leftmost `</span>` whose remainder
is all whitespace up to the end of the string (if any). -/
def stripCloseAux : Str → Option Str
  | [] => none
  | c :: rest =>
    if spanClose.isPrefixOf (c :: rest) ∧ (rest.drop (spanClose.length - 1)).all isWs then
      some []
    else
      match stripCloseAux rest with
      | some a => some (c :: a)
      | none => none

def stripClose (s : Str) : Str := (stripCloseAux s).getD s

/-- One attempt of the token regex
`<span style="color:\s*(#[0-9a-fA-F]{3,8})">(.*?)<\/span>` anchored at the
start of `s`: the literal opener, greedy whitespace, `#` and 3–8 hex digits
followed by `">`, then the shortest newline-free text up to `</span>`.
Returns the captured color, the captured text, and the remainder. -/
def tryToken (s : Str) : Option (Str × Str × {rem : Str // rem.length < s.length}) :=
  if colorPre.isPrefixOf s then
    match h2 : (s.drop colorPre.length).dropWhile isWs with
    | '#' :: hrest =>
      let digits := hrest.takeWhile isHexDigit
      if 3 ≤ digits.length ∧ digits.length ≤ 8 ∧
          ("\">".data.isPrefixOf (hrest.drop digits.length)) then
        match splitFirstSub '<' "/span>".data (hrest.drop (digits.length + 2)) with
        | some (content, ⟨rem, hrem⟩) =>
          if content.all (· ≠ '\n') then
            some ('#' :: digits, content, ⟨rem, by
              have h3 : hrest.length < ((s.drop colorPre.length).dropWhile isWs).length := by
                rw [h2]; simp
              have h4 : ((s.drop colorPre.length).dropWhile isWs).length ≤
                  (s.drop colorPre.length).length :=
                (List.dropWhile_sublist _).length_le
              have h5 : (s.drop colorPre.length).length ≤ s.length := by
                simp [List.length_drop]
              have h6 : (hrest.drop (digits.length + 2)).length ≤ hrest.length := by
                simp [List.length_drop]
              omega⟩)
          else none
        | none => none
      else none
    | _ => none
  else none

/-- `tokenRegex.exec`: leftmost token match; the gap before it is returned. -/
def findToken : (s : Str) → Option (Str × Str × Str × {rem : Str // rem.length < s.length})
  | [] => none
  | c :: rest =>
    match tryToken (c :: rest) with
    | some (color, content, rem) => some ([], color, content, rem)
    | none =>
      match findToken rest with
      | some (gap, color, content, ⟨rem, hr⟩) =>
        some (c :: gap, color, content, ⟨rem, by simp; omega⟩)
      | none => none

/-- The shared per-line token loop of both Shiki parsers: plain text between
matches is tag-stripped, unescaped and pushed with the default foreground when
non-empty; each matched span yields an explicitly colored token; trailing text
is handled like a gap. -/
def scanColorTokens (lineContent : Str) : List CodeToken :=
  match findToken lineContent with
  | none =>
    let remaining := stripTags lineContent
    if remaining = [] then [] else [⟨unescapeHtml remaining, DEFAULT_CODE_FG⟩]
  | some (gap, color, raw, ⟨rem, _⟩) =>
    (let plain := stripTags gap
     if plain = [] then [] else [⟨unescapeHtml plain, DEFAULT_CODE_FG⟩]) ++
    ⟨unescapeHtml raw, color⟩ :: scanColorTokens rem
termination_by lineContent.length

/-- One attempt of `/<code[^>]*>([\s\S]*?)<\/code>/` anchored at the start:
`<code`, anything up to the first `>`, then the shortest text up to
`</code>`. -/
def tryCodeAt (s : Str) : Option Str :=
  if "<code".data.isPrefixOf s then
    match splitFirstSub '>' [] (s.drop 5) with
    | some (_, ⟨afterGt, _⟩) =>
      match splitFirstSub '<' "/code>".data afterGt with
      | some (content, _) => some content
      | none => none
    | none => none
  else none

/-- The leftmost position where the `<code…>…</code>` regex matches. -/
def findCode : Str → Option Str
  | [] => none
  | c :: rest =>
    match tryCodeAt (c :: rest) with
    | some content => some content
    | none => findCode rest

/-- `parseShikiHtml` (src/utils/shikiTokenParser.ts): extract the code region,
split on `<span class="line">`, skip whitespace-only parts, strip the line
wrapper's closing `</span>`, and tokenize each line. -/
def parseShikiHtml (html : Str) : List (List CodeToken) :=
  match findCode html with
  | none => []
  | some inner =>
    ((splitOnSub '<' ("span class=\"line\">".data) inner).filter
        (fun part => !(trim part).isEmpty)).map
      (fun part => scanColorTokens (stripClose part))

/-! ### A structured description of highlighter markup (for the round-trip
claim): one code wrapper, one line wrapper per source line, and inside each
line a sequence of color-tagged spans and plain text. -/

/-- One item inside a highlighted line. -/
inductive ShikiItem
  | colored (color : Str) (text : Str)
  | plain (text : Str)
deriving DecidableEq, Repr

def itemHtml : ShikiItem → Str
  | .colored c t => colorPre ++ c ++ "\">".data ++ t ++ spanClose
  | .plain t => t

def itemText : ShikiItem → Str
  | .colored _ t => t
  | .plain t => t

def lineBody (items : List ShikiItem) : Str := (items.map itemHtml).flatten

def lineHtml (items : List ShikiItem) : Str := lineMarker ++ lineBody items ++ spanClose

/-- The line wrappers joined by newlines (the content of the code wrapper). -/
def shikiContent (lines : List (List ShikiItem)) : Str :=
  List.intercalate ['\n'] (lines.map lineHtml)

/-- The whole markup: `<code>` wrapper, line wrappers joined by newlines. -/
def buildShikiHtml (lines : List (List ShikiItem)) : Str :=
  "<code>".data ++ shikiContent lines ++ "</code>".data

/-- The parts `split(/<span class="line">/)` produces for the content, after
its leading empty part: each line's body with the wrapper's closing tag, and
the newline separator on all but the last. -/
def partsOf : List (List ShikiItem) → List Str
  | [] => []
  | [l] => [lineBody l ++ spanClose]
  | l :: ls => (lineBody l ++ spanClose ++ ['\n']) :: partsOf ls

/-- The raw (HTML-escaped) text content of a line of items. -/
def itemTexts (items : List ShikiItem) : Str := (items.map itemText).flatten

/-- The concatenation of the parsed tokens' texts. -/
def tokenTexts (ts : List CodeToken) : Str := (ts.map CodeToken.text).flatten

/-- The text pieces the parser unescapes separately: maximal runs of adjacent
plain text merge into one piece, every colored span is its own piece. -/
def linePiecesAux (pending : Str) : List ShikiItem → List Str
  | [] => if pending = [] then [] else [pending]
  | .colored _ t :: rest => (if pending = [] then [] else [pending]) ++ t :: linePiecesAux [] rest
  | .plain t :: rest => linePiecesAux (pending ++ t) rest

def linePieces (items : List ShikiItem) : List Str := linePiecesAux [] items

/-- Well-formed highlighter markup items: colors are `#` plus 3–8 hex digits,
text content is HTML-escaped (hence free of `<`) and line-internal (no
newline). -/
def itemWF : ShikiItem → Bool
  | .colored c t =>
      (match c with
       | '#' :: ds => decide (3 ≤ ds.length) && decide (ds.length ≤ 8) && ds.all isHexDigit
       | _ => false) && t.all (· ≠ '<') && t.all (· ≠ '\n')
  | .plain t => t.all (· ≠ '<') && t.all (· ≠ '\n')

/-- The tags that can head a `<`-suffix inside a line body. -/
def tagsB : List Str := [colorPre, spanClose]

/-- The tags that can head a `<`-suffix inside the code wrapper's content. -/
def tagsC : List Str := [lineMarker, colorPre, spanClose]

/-- Every suffix of `s` that starts at a `<` starts with one of the tags in
`A`.  This is the structural fact that makes the scanners deterministic on
well-formed markup. -/
def headTagged (A : List Str) (s : Str) : Prop :=
  ∀ b ∈ s.tails, b ≠ [] → b.head? = some '<' → ∃ a ∈ A, a <+: b

end Shiki

/-! ## src/components/export/pdfNativeExport.ts

The jsPDF drawing surface is modelled as a list of drawing commands per page;
`doc.setX` state calls made only to measure text are folded into the abstract
measure function supplied by the environment.  Colors stay as hex strings (the
`hexToRgb` conversion is a jsPDF presentation detail).  External collaborators
(text measurement, the Shiki highlighter, the asset resolver, `fetch`,
`fetchImageAsBase64`, jsPDF's `addImage` acceptance) form the environment;
operations the source does not guard with try/catch are `Except`-valued. -/

namespace Pdf

/-- Abstract jsPDF drawing command. -/
inductive Cmd
  | setFillColor (hex : Str)
  | setDrawColor (hex : Str)
  | setTextColor (hex : Str)
  | setLineWidth (w : ℚ)
  | setFont (font style : Str)
  | setFontSize (size : ℚ)
  | rect (x y w h : ℚ) (mode : Str)
  | roundedRect (x y w h rx ry : ℚ) (mode : Str)
  | ellipse (cx cy rx ry : ℚ) (mode : Str)
  | line (x1 y1 x2 y2 : ℚ)
  | triangle (x1 y1 x2 y2 x3 y3 : ℚ) (mode : Str)
  | text (s : Str) (x y : ℚ)
  | textCenter (s : Str) (x y : ℚ)
  | addImage (data fmt : Str) (x y w h : ℚ)
  | svg (svgText : Str) (x y w h : ℚ)
deriving DecidableEq, Repr

/-- Failures of the unguarded external operations. -/
inductive DrawErr
  | embedRejected
  | fetchRejected
deriving DecidableEq, Repr

/-- `fetch` response surface used by `drawTikZ`. -/
structure FetchResp where
  ok : Bool
  body : Str
deriving DecidableEq, Repr

/-- `doc.getTextWidth` under the current font, style and size. -/
abbrev Measure := Str → Str → ℚ → Str → ℚ

/-- External collaborators of the export engine. -/
structure Env where
  /-- text measurement (font, style, size, text) -/
  measure : Measure
  /-- the Shiki highlighter: code, language, theme ↦ markup -/
  codeToHtml : Str → Str → Str → Str
  /-- `adapter.resolveAssetUrl` -/
  resolveAsset : Str → Str
  /-- `fetchImageAsBase64`: catches all fetch errors internally, `none` on failure -/
  fetchB64 : Str → Option Str
  /-- whether jsPDF `addImage` accepts the supplied data (it throws otherwise) -/
  addImageOk : Str → Bool
  /-- global `fetch`: a rejected promise is an error -/
  fetch : Str → Except DrawErr FetchResp

/-- Logical canvas size.  Modelled from the spec: the deck shares a fixed
logical canvas size with the live renderer, e.g. 960×540 device px (§3, §6);
the constant's definition site (src/types/deck.ts) is not part of the
sources under study. -/
def CANVAS_WIDTH : ℚ := 960

/-- Logical canvas height; see `CANVAS_WIDTH`. -/
def CANVAS_HEIGHT : ℚ := 540

/-- Geometry of an element. -/
structure Pos where
  x : ℚ
  y : ℚ
deriving DecidableEq, Repr

structure Size where
  w : ℚ
  h : ℚ
deriving DecidableEq, Repr

structure TextStyle where
  fontFamily : Option Str := none
  fontSize : Option ℚ := none
  color : Option Str := none
  textAlign : Option Str := none
  lineHeight : Option ℚ := none
  verticalAlign : Option Str := none
deriving DecidableEq, Repr

structure CodeStyle where
  fontSize : Option ℚ := none
  borderRadius : Option ℚ := none
  theme : Option Str := none
deriving DecidableEq, Repr

structure ShapeStyle where
  fill : Option Str := none
  stroke : Option Str := none
  strokeWidth : Option ℚ := none
  borderRadius : Option ℚ := none
deriving DecidableEq, Repr

structure TableStyle where
  fontSize : Option ℚ := none
  color : Option Str := none
  headerBackground : Option Str := none
  headerColor : Option Str := none
  borderColor : Option Str := none
deriving DecidableEq, Repr

structure Background where
  color : Option Str := none
deriving DecidableEq, Repr

structure SlideTheme where
  background : Option Background := none
deriving DecidableEq, Repr

/-- Theme-level per-element-type defaults.  The image style is omitted: the
source resolves it and discards the result. -/
structure Theme where
  slide : Option SlideTheme := none
  text : Option TextStyle := none
  code : Option CodeStyle := none
  shape : Option ShapeStyle := none
  table : Option TableStyle := none
deriving DecidableEq, Repr

inductive ShapeKind
  | rectangle
  | ellipse
  | line
  | arrow
deriving DecidableEq, Repr

/-- The closed element variant (`SlideElement` in src/types/deck.ts as consumed
by the export switch). -/
inductive SlideElement
  | text (content : Str) (position : Pos) (size : Size) (style : Option TextStyle)
  | code (language content : Str) (position : Pos) (size : Size) (style : Option CodeStyle)
  | shape (kind : ShapeKind) (position : Pos) (size : Size) (style : Option ShapeStyle)
  | image (src : Str) (position : Pos) (size : Size)
  | table (columns : List Str) (rows : List (List Str)) (position : Pos) (size : Size)
      (style : Option TableStyle)
  | tikz (svgUrl : Option Str) (position : Pos) (size : Size)
  | video (src : Str) (position : Pos) (size : Size)
deriving DecidableEq, Repr

structure Slide where
  hidden : Bool := false
  background : Option Background := none
  elements : List SlideElement
deriving DecidableEq, Repr

structure Deck where
  theme : Option Theme := none
  slides : List Slide
deriving DecidableEq, Repr

/-- Field-wise `{...theme, ...element}` merge: the element's present field
wins (exportUtils.ts `resolveStyle`). -/
def fld (el th : Option σ) (f : σ → Option α) : Option α := (el.bind f) <|> (th.bind f)

def resolveTextStyle (th el : Option TextStyle) : TextStyle :=
  ⟨fld el th TextStyle.fontFamily, fld el th TextStyle.fontSize, fld el th TextStyle.color,
   fld el th TextStyle.textAlign, fld el th TextStyle.lineHeight,
   fld el th TextStyle.verticalAlign⟩

def resolveCodeStyle (th el : Option CodeStyle) : CodeStyle :=
  ⟨fld el th CodeStyle.fontSize, fld el th CodeStyle.borderRadius, fld el th CodeStyle.theme⟩

def resolveShapeStyle (th el : Option ShapeStyle) : ShapeStyle :=
  ⟨fld el th ShapeStyle.fill, fld el th ShapeStyle.stroke, fld el th ShapeStyle.strokeWidth,
   fld el th ShapeStyle.borderRadius⟩

def resolveTableStyle (th el : Option TableStyle) : TableStyle :=
  ⟨fld el th TableStyle.fontSize, fld el th TableStyle.color,
   fld el th TableStyle.headerBackground, fld el th TableStyle.headerColor,
   fld el th TableStyle.borderColor⟩

/-- Substring containment (JS `String.prototype.includes`). -/
def containsSub (needle hay : Str) : Bool := decide (needle <:+: hay)

/-- `mapFont`: custom font families → the jsPDF 14 standard fonts by substring
keyword matching on the lower-cased family string. -/
def mapFont (fontFamily : Str) : Str :=
  let lower := fontFamily.map Char.toLower
  if containsSub "courier".data lower || containsSub "mono".data lower ||
      containsSub "fira".data lower then "courier".data
  else if containsSub "times".data lower || containsSub "serif".data lower then "times".data
  else "helvetica".data

/-- The pdfNativeExport.ts copy of `parseInlineMarkdown`: same scanner as the
shared one but without the inline-math alternative.  Its `TextRun` lacks the
`math` field; we reuse the shared structure, on which the flag stays false. -/
def parseInlineMarkdown (text : Str) : List MD.TextRun :=
  match MD.scanRuns [.bold, .italic, .code] text with
  | [] => [MD.plainRun text]
  | rs => rs

/-- The pdfNativeExport.ts copy of `ParsedLine`: no block math, numeric
indent (20 for list items). -/
structure ParsedLine where
  runs : List MD.TextRun
  indent : ℚ
  bullet : Bool
  fontScale : ℚ
  isBold : Bool
deriving DecidableEq, Repr

/-- The pdfNativeExport.ts copy of `parseMarkdownLines`: blank lines and
`$$`-prefixed lines are skipped; headings (all forced bold here), list items
with indent 20, paragraphs. -/
def parseMarkdownLines (source : Str) : List ParsedLine :=
  (splitNl source).foldl
    (fun parsed line =>
      let t := trim line
      if t = [] then parsed
      else if ['$', '$'].isPrefixOf t then parsed
      else if t = ['$', '$'] then parsed
      else
        match MD.headingMatch t with
        | some (lvl, txt) =>
          parsed ++ [⟨parseInlineMarkdown txt, 0, false, MD.headingScale lvl, true⟩]
        | none =>
          if ['-', ' '].isPrefixOf t ∨ ['*', ' '].isPrefixOf t then
            parsed ++ [⟨parseInlineMarkdown (t.drop 2), 20, true, 1, false⟩]
          else
            parsed ++ [⟨parseInlineMarkdown t, 0, false, 1, false⟩])
    []

/-- `run.text.split(/(\s+)/)` with empty pieces filtered: the maximal runs of
whitespace / non-whitespace characters, in order. -/
def wsGroups : Str → List Str
  | [] => []
  | c :: rest =>
    match wsGroups rest with
    | [] => [[c]]
    | g :: gs =>
      match g with
      | [] => [[c]]
      | d :: _ => if isWs c = isWs d then (c :: g) :: gs else [c] :: g :: gs

/-- A word-level drawing segment of `drawText`. -/
structure Seg where
  text : Str
  font : Str
  style : Str
  size : ℚ
deriving DecidableEq, Repr

/-- A word-wrapped visual line (`VisualLine` in `drawText`). -/
structure VisualLine where
  segments : List Seg
  indent : ℚ
  bullet : Bool
deriving DecidableEq, Repr

def segWidth (m : Measure) (s : Seg) : ℚ := m s.font s.style s.size s.text

def sumWidths (m : Measure) (segs : List Seg) : ℚ := (segs.map (segWidth m)).sum

/-- `drawText`'s word-level flattening of a parsed line's runs: per run the
style (heading bold wins, then run bold, then italic) and font (code →
courier), then the whitespace-preserving word split. -/
def buildWords (pdfFont : Str) (fontSize : ℚ) (plIsBold : Bool)
    (runs : List MD.TextRun) : List Seg :=
  runs.flatMap fun run =>
    let style := if plIsBold || run.bold then "bold".data
                 else if run.italic then "italic".data
                 else "normal".data
    let font := if run.code then "courier".data else pdfFont
    (wsGroups run.text).map fun rw => ⟨rw, font, style, fontSize⟩

/-- `drawText`'s greedy word-wrap loop.  `cur`/`cw`/`b` mirror `currentLine`,
`currentWidth` and the current line's bullet flag; on overflow with a
non-empty line the line is closed, and a purely-whitespace unit that would
start the next line is dropped. -/
def wrapWords (m : Measure) (avail indent : ℚ) :
    List Seg → List Seg → ℚ → Bool → List VisualLine
  | [], cur, _, b => if cur = [] then [] else [⟨cur, indent, b⟩]
  | w :: ws, cur, cw, b =>
    let ww := segWidth m w
    if cw + ww > avail ∧ cur ≠ [] then
      if trim w.text = [] then
        ⟨cur, indent, b⟩ :: wrapWords m avail indent ws [] 0 false
      else
        ⟨cur, indent, b⟩ :: wrapWords m avail indent ws [w] ww false
    else
      wrapWords m avail indent ws (cur ++ [w]) (cw + ww) b

/-- The visual lines of all parsed lines: per parsed line the effective font
size is the base size times the line's scale, and the available width is the
padded box width minus the line's indent. -/
def buildVisualLines (m : Measure) (pdfFont : Str) (baseFontSize maxWidth : ℚ)
    (pls : List ParsedLine) : List VisualLine :=
  pls.flatMap fun pl =>
    let fontSize := baseFontSize * pl.fontScale
    let avail := maxWidth - pl.indent
    let words := buildWords pdfFont fontSize pl.isBold pl.runs
    wrapWords m avail pl.indent words [] 0 pl.bullet

/-- Drawing one visual line's segments left to right. -/
def segCmds (m : Measure) (color : Str) : List Seg → ℚ → ℚ → List Cmd
  | [], _, _ => []
  | s :: ss, lx, ly =>
    Cmd.setFont s.font s.style :: Cmd.setFontSize s.size :: Cmd.setTextColor color ::
    Cmd.text s.text lx ly :: segCmds m color ss (lx + segWidth m s) ly

/-- Drawing one visual line: alignment-dependent start position, the optional
bullet glyph, then the segments. -/
def lineCmds (m : Measure) (color pdfFont : Str) (baseFontSize x w maxWidth padding : ℚ)
    (align : Str) (vl : VisualLine) (lineY : ℚ) : List Cmd :=
  let lineX :=
    if align = "center".data then
      let totalW := vl.indent + sumWidths m vl.segments
      x + padding + (maxWidth - totalW) / 2 + vl.indent
    else if align = "right".data then
      x + w - padding - sumWidths m vl.segments
    else x + padding + vl.indent
  (if vl.bullet then
     [Cmd.setFont pdfFont "normal".data, Cmd.setFontSize baseFontSize,
      Cmd.setTextColor color, Cmd.text "•".data (lineX - 12) lineY]
   else []) ++
  segCmds m color vl.segments lineX lineY

/-- The render loop over visual lines with bottom-edge clipping
(`if (lineY > y + h) break`). -/
def drawLinesLoop (m : Measure) (color pdfFont : Str)
    (baseFontSize x y w h maxWidth padding : ℚ) (align : Str) (lineHeightPx : ℚ) :
    List VisualLine → ℚ → List Cmd
  | [], _ => []
  | vl :: rest, lineY =>
    if lineY > y + h then []
    else
      lineCmds m color pdfFont baseFontSize x w maxWidth padding align vl lineY ++
      drawLinesLoop m color pdfFont baseFontSize x y w h maxWidth padding align lineHeightPx
        rest (lineY + lineHeightPx)

/-- `drawText` (pdfNativeExport.ts). -/
def drawText (env : Env) (theme : Option Theme) (content : Str) (pos : Pos) (sz : Size)
    (style : Option TextStyle) : List Cmd :=
  let s := resolveTextStyle (theme.bind Theme.text) style
  let fontFamily := s.fontFamily.getD DEFAULT_TEXT_FONT
  let baseFontSize := s.fontSize.getD DEFAULT_TEXT_SIZE
  let color := s.color.getD DEFAULT_TEXT_COLOR
  let align := s.textAlign.getD "left".data
  let lineHeight := s.lineHeight.getD DEFAULT_LINE_HEIGHT
  let verticalAlign := s.verticalAlign.getD "top".data
  let pdfFont := mapFont fontFamily
  let x := pos.x
  let y := pos.y
  let w := sz.w
  let h := sz.h
  let padding : ℚ := 4
  let maxWidth := w - padding * 2
  let parsedLines := parseMarkdownLines content
  let visualLines := buildVisualLines env.measure pdfFont baseFontSize maxWidth parsedLines
  let lineHeightPx := baseFontSize * lineHeight
  let totalHeight := (visualLines.length : ℚ) * lineHeightPx
  let startY :=
    if verticalAlign = "middle".data then y + (h - totalHeight) / 2 + baseFontSize
    else if verticalAlign = "bottom".data then y + h - totalHeight + baseFontSize - padding
    else y + padding + baseFontSize
  drawLinesLoop env.measure color pdfFont baseFontSize x y w h maxWidth padding align
    lineHeightPx visualLines startY

/-- The pdfNativeExport.ts copy of `parseShikiHtml` uses the dotall lazy line
regex `/<span class="line">(.*?)<\/span>/gs`: successive leftmost matches,
capture up to the first `</span>` after each marker. -/
def shikiLineParts (s : Str) : List Str :=
  match Shiki.splitFirstSub '<' ("span class=\"line\">".data) s with
  | none => []
  | some (_, ⟨afterMarker, _h1⟩) =>
    match Shiki.splitFirstSub '<' ("/span>".data) afterMarker with
    | none => []
    | some (content, ⟨rem, _h2⟩) => content :: shikiLineParts rem
termination_by s.length
decreasing_by omega

/-- `parseShikiHtml` (pdfNativeExport.ts copy): per matched line the identical
token loop as the shared parser. -/
def parseShikiHtml (html : Str) : List (List Shiki.CodeToken) :=
  (shikiLineParts html).map Shiki.scanColorTokens

/-- The token-drawing loop of one code line. -/
def codeTokensCmds (env : Env) (fontSize : ℚ) : List Shiki.CodeToken → ℚ → ℚ → List Cmd
  | [], _, _ => []
  | t :: ts, dx, dy =>
    Cmd.setTextColor t.color :: Cmd.text t.text dx dy ::
    codeTokensCmds env fontSize ts
      (dx + env.measure "courier".data "normal".data fontSize t.text) dy

/-- The per-line loop of `drawCode` with its bottom clipping
(`if (drawY > y + h - padding) break`). -/
def codeLinesCmds (env : Env) (x y h fontSize lineHeight : ℚ) :
    List (List Shiki.CodeToken) → ℚ → List Cmd
  | [], _ => []
  | ts :: rest, dy =>
    if dy > y + h - 16 then []
    else
      codeTokensCmds env fontSize ts (x + 16) dy ++
      codeLinesCmds env x y h fontSize lineHeight rest (dy + lineHeight)

/-- `drawCode` (pdfNativeExport.ts): rounded background, then highlighted
token lines in courier. -/
def drawCode (env : Env) (theme : Option Theme) (language content : Str) (pos : Pos)
    (sz : Size) (style : Option CodeStyle) : List Cmd :=
  let s := resolveCodeStyle (theme.bind Theme.code) style
  let fontSize := s.fontSize.getD DEFAULT_CODE_SIZE
  let radius := s.borderRadius.getD DEFAULT_CODE_RADIUS
  let th := s.theme.getD DEFAULT_CODE_THEME
  let bgColor := DEFAULT_CODE_BG
  let x := pos.x
  let y := pos.y
  let w := sz.w
  let h := sz.h
  [Cmd.setFillColor bgColor, Cmd.roundedRect x y w h radius radius "F".data] ++
  if content = [] then []
  else
    let html := env.codeToHtml content language th
    let tokenLines := parseShikiHtml html
    let padding : ℚ := 16
    let lineHeight := fontSize * 1.5
    [Cmd.setFont "courier".data "normal".data, Cmd.setFontSize fontSize] ++
    codeLinesCmds env x y h fontSize lineHeight tokenLines (y + padding + fontSize)

/-- `drawShape` (pdfNativeExport.ts). -/
def drawShape (theme : Option Theme) (kind : ShapeKind) (pos : Pos) (sz : Size)
    (style : Option ShapeStyle) : List Cmd :=
  let s := resolveShapeStyle (theme.bind Theme.shape) style
  let fill := s.fill.getD "transparent".data
  let stroke := s.stroke.getD "#ffffff".data
  let strokeWidth := s.strokeWidth.getD 1
  let x := pos.x
  let y := pos.y
  let w := sz.w
  let h := sz.h
  [Cmd.setLineWidth strokeWidth, Cmd.setDrawColor stroke] ++
  match kind with
  | .rectangle =>
    let radius := s.borderRadius.getD 0
    let hasFill := fill ≠ "transparent".data
    (if hasFill then [Cmd.setFillColor fill] else []) ++
    (let mode := if hasFill then "FD".data else "S".data
     if radius > 0 then [Cmd.roundedRect x y w h radius radius mode]
     else [Cmd.rect x y w h mode])
  | .ellipse =>
    let hasFill := fill ≠ "transparent".data
    (if hasFill then [Cmd.setFillColor fill] else []) ++
    (let mode := if hasFill then "FD".data else "S".data
     [Cmd.ellipse (x + w / 2) (y + h / 2) (w / 2) (h / 2) mode])
  | .line => [Cmd.line x (y + h / 2) (x + w) (y + h / 2)]
  | .arrow =>
    let headSize : ℚ := 10
    let tipX := x + w
    let tipY := y + h / 2
    [Cmd.line x (y + h / 2) (x + w) (y + h / 2),
     Cmd.setFillColor stroke,
     Cmd.triangle tipX tipY (tipX - headSize) (tipY - headSize / 2)
       (tipX - headSize) (tipY + headSize / 2) "F".data]

/-- `drawImage` (pdfNativeExport.ts): resolve, fetch-as-base64 with fallback
to the resolved reference, then a single embed; jsPDF `addImage` throws on
data it does not accept, which nothing catches. -/
def drawImage (env : Env) (src : Str) (pos : Pos) (sz : Size) :
    Except DrawErr (List Cmd) :=
  let resolved := env.resolveAsset src
  let b64 := env.fetchB64 resolved
  let imgData := b64.getD resolved
  if env.addImageOk imgData then
    .ok [Cmd.addImage imgData "PNG".data pos.x pos.y sz.w sz.h]
  else .error .embedRejected

/-- `drawTikZ` (pdfNativeExport.ts): no svgUrl → nothing; a non-ok response →
nothing; a rejected fetch propagates (nothing catches it). -/
def drawTikZ (env : Env) (svgUrl : Option Str) (pos : Pos) (sz : Size) :
    Except DrawErr (List Cmd) :=
  match svgUrl with
  | none => .ok []
  | some u => do
    let resolved := env.resolveAsset u
    let resp ← env.fetch resolved
    if resp.ok then .ok [Cmd.svg resp.body pos.x pos.y sz.w sz.h]
    else .ok []

/-- `drawTable` (pdfNativeExport.ts). -/
def drawTable (theme : Option Theme) (columns : List Str) (rows : List (List Str))
    (pos : Pos) (sz : Size) (style : Option TableStyle) : List Cmd :=
  let s := resolveTableStyle (theme.bind Theme.table) style
  let fontSize := s.fontSize.getD DEFAULT_TABLE_SIZE
  let color := s.color.getD "#e2e8f0".data
  let hBg := s.headerBackground.getD "#1e293b".data
  let hColor := s.headerColor.getD "#f8fafc".data
  let bColor := s.borderColor.getD "#334155".data
  let x := pos.x
  let y := pos.y
  let w := sz.w
  let h := sz.h
  let colCount := columns.length
  let rowCount := rows.length + 1
  let colWidth := w / colCount
  let rowHeight := h / rowCount
  let cellPadding : ℚ := 6
  [Cmd.setFontSize fontSize, Cmd.setLineWidth 0.5, Cmd.setDrawColor bColor,
   Cmd.rect x y w h "S".data, Cmd.setFillColor hBg, Cmd.rect x y w rowHeight "F".data,
   Cmd.setFont "helvetica".data "bold".data, Cmd.setTextColor hColor] ++
  ((List.range colCount).flatMap fun (ci : ℕ) =>
    let cellX := x + (ci : ℚ) * colWidth
    Cmd.text (columns.getD ci []) (cellX + cellPadding) (y + rowHeight / 2 + fontSize / 3) ::
    (if 0 < ci then [Cmd.line cellX y cellX (y + h)] else [])) ++
  [Cmd.line x (y + rowHeight) (x + w) (y + rowHeight),
   Cmd.setFont "helvetica".data "normal".data, Cmd.setTextColor color] ++
  ((List.range rows.length).flatMap fun (ri : ℕ) =>
    let rowY := y + ((ri : ℚ) + 1) * rowHeight
    (if ri < rows.length - 1 then
       [Cmd.setDrawColor bColor, Cmd.line x (rowY + rowHeight) (x + w) (rowY + rowHeight)]
     else []) ++
    (List.range colCount).map fun (ci : ℕ) =>
      let cellX := x + (ci : ℚ) * colWidth
      Cmd.text ((rows.getD ri []).getD ci []) (cellX + cellPadding)
        (rowY + rowHeight / 2 + fontSize / 3))

/-- `drawVideo` (pdfNativeExport.ts): filled placeholder with border and a
centered label. -/
def drawVideo (pos : Pos) (sz : Size) : List Cmd :=
  let x := pos.x
  let y := pos.y
  let w := sz.w
  let h := sz.h
  [Cmd.setFillColor "#1e1e1e".data, Cmd.rect x y w h "F".data,
   Cmd.setDrawColor "#666666".data, Cmd.setLineWidth 1, Cmd.rect x y w h "S".data,
   Cmd.setFont "helvetica".data "normal".data, Cmd.setFontSize 14,
   Cmd.setTextColor "#999999".data, Cmd.textCenter "[Video]".data (x + w / 2) (y + h / 2)]

/-- The type-tag dispatch of `renderSlide`'s element loop. -/
def drawElement (env : Env) (deck : Deck) (el : SlideElement) : Except DrawErr (List Cmd) :=
  match el with
  | .text content p s st => .ok (drawText env deck.theme content p s st)
  | .code lang content p s st => .ok (drawCode env deck.theme lang content p s st)
  | .shape k p s st => .ok (drawShape deck.theme k p s st)
  | .image src p s => drawImage env src p s
  | .table cols rows p s st => .ok (drawTable deck.theme cols rows p s st)
  | .tikz u p s => drawTikZ env u p s
  | .video _ p s => .ok (drawVideo p s)

/-- `renderSlide` (pdfNativeExport.ts): background fill, then each element in
order; element failures propagate (there is no try/catch). -/
def renderSlide (env : Env) (deck : Deck) (slide : Slide) : Except DrawErr (List Cmd) :=
  let bg :=
    match slide.background with
    | some b => some b
    | none => (deck.theme.bind Theme.slide).bind SlideTheme.background
  let bgColor := (bg.bind Background.color).getD DEFAULT_BG
  slide.elements.foldlM
    (fun acc el => do
      let cs ← drawElement env deck el
      pure (acc ++ cs))
    [Cmd.setFillColor bgColor, Cmd.rect 0 0 CANVAS_WIDTH CANVAS_HEIGHT "F".data]

/-- The jsPDF document: finalized pages plus the page currently drawn on;
a fresh document has one (empty) page. -/
structure PdfDoc where
  donePages : List (List Cmd)
  current : List Cmd
deriving DecidableEq, Repr

/-- `doc.addPage`. -/
def PdfDoc.addPage (d : PdfDoc) : PdfDoc := ⟨d.donePages ++ [d.current], []⟩

/-- Appending drawing commands to the current page. -/
def PdfDoc.draw (d : PdfDoc) (cs : List Cmd) : PdfDoc := ⟨d.donePages, d.current ++ cs⟩

/-- All pages in order (`doc.getNumberOfPages` is its length). -/
def PdfDoc.pageList (d : PdfDoc) : List (List Cmd) := d.donePages ++ [d.current]

/-- `deck.slides.filter((s) => !s.hidden)`. -/
def visibleSlides (deck : Deck) : List Slide := deck.slides.filter (fun s => !s.hidden)

/-- `buildNativePdf` (pdfNativeExport.ts): a fresh single-page document; the
non-hidden slides in order, adding a page before every slide but the first. -/
def buildNativePdf (env : Env) (deck : Deck) : Except DrawErr PdfDoc := do
  let init : PdfDoc := ⟨[], []⟩
  let slides := visibleSlides deck
  let r ← slides.foldlM
    (fun (st : PdfDoc × Bool) sl => do
      let d := if st.2 then st.1 else st.1.addPage
      let cs ← renderSlide env deck sl
      pure (d.draw cs, false))
    (init, true)
  pure r.1

/-- A concrete environment whose `fetch` always rejects (a network failure);
all other collaborators succeed. -/
def fetchFailsEnv : Env :=
  ⟨fun _ _ _ _ => 0, fun _ _ _ => [], id, fun _ => none, fun _ => true,
   fun _ => .error .fetchRejected⟩

/-- One visible slide holding a TikZ element (whose SVG fetch will reject)
followed by a video element. -/
def tikzThenVideoDeck : Deck :=
  ⟨none, [⟨false, none, [.tikz (some "d.svg".data) ⟨0, 0⟩ ⟨10, 10⟩,
                         .video "v.mp4".data ⟨20, 0⟩ ⟨10, 10⟩]⟩]⟩

/-- A three-slide deck whose middle slide is hidden (all slides empty). -/
def threeSlideDeck : Deck :=
  ⟨none, [⟨false, none, []⟩, ⟨true, none, []⟩, ⟨false, none, []⟩]⟩

/-- The background commands of an empty slide under the default theme. -/
def defaultBgPage : List Cmd :=
  [Cmd.setFillColor DEFAULT_BG, Cmd.rect 0 0 CANVAS_WIDTH CANVAS_HEIGHT "F".data]

end Pdf

/-! # Theorems -/

/-! ## Generic helper lemmas -/

theorem prefix_decomp {p s : Str} (h : p.isPrefixOf s = true) :
    s = p ++ s.drop p.length := by
  obtain ⟨t, rfl⟩ := List.isPrefixOf_iff_prefix.mp h
  simp

theorem suffix_append_cases {l a b : List α} (h : l <:+ a ++ b) :
    l <:+ b ∨ ∃ a', a' <:+ a ∧ a' ≠ [] ∧ l = a' ++ b := by
  induction a with
  | nil => exact Or.inl (by simpa using h)
  | cons x a ih =>
    rcases (List.suffix_cons_iff.mp (by simpa using h)) with h1 | h2
    · exact Or.inr ⟨x :: a, List.suffix_refl _, by simp, by simpa using h1⟩
    · rcases ih h2 with h3 | ⟨a', ha1, ha2, ha3⟩
      · exact Or.inl h3
      · exact Or.inr ⟨a', ha1.trans (List.suffix_cons _ _), ha2, ha3⟩

theorem mapM_except_length {f : α → Except ε β} :
    ∀ {l : List α} {xs : List β}, l.mapM f = .ok xs → xs.length = l.length := by
  intro l
  induction l with
  | nil =>
    intro xs h
    rw [List.mapM_nil] at h
    cases h
    rfl
  | cons a l ih =>
    intro xs h
    rw [List.mapM_cons] at h
    cases hf : f a with
    | error e => rw [hf] at h; exact Except.noConfusion h
    | ok b =>
      rw [hf] at h
      cases hm : l.mapM f with
      | error e => rw [hm] at h; exact Except.noConfusion h
      | ok bs =>
        rw [hm] at h
        cases h
        simp [ih hm]

theorem mapM_except_append_error {f : α → Except ε β} {l1 : List α} {xs : List β}
    {a : α} {e : ε} (h1 : l1.mapM f = .ok xs) (h2 : f a = .error e) (l2 : List α) :
    (l1 ++ a :: l2).mapM f = .error e := by
  induction l1 generalizing xs with
  | nil =>
    rw [List.nil_append, List.mapM_cons, h2]
    rfl
  | cons b l1 ih =>
    rw [List.mapM_cons] at h1
    cases hb : f b with
    | error eb => rw [hb] at h1; exact Except.noConfusion h1
    | ok vb =>
      rw [hb] at h1
      cases hm : l1.mapM f with
      | error em => rw [hm] at h1; exact Except.noConfusion h1
      | ok vs =>
        rw [List.cons_append, List.mapM_cons, hb, ih hm]
        rfl

/-! ## Page assembly (buildNativePdf) -/

namespace Pdf

theorem pageList_draw (d : PdfDoc) (cs : List Cmd) :
    (d.draw cs).pageList = d.donePages ++ [d.current ++ cs] := by
  simp [PdfDoc.draw, PdfDoc.pageList]

theorem pageList_addPage_draw (d : PdfDoc) (cs : List Cmd) :
    ((d.addPage).draw cs).pageList = d.pageList ++ [cs] := by
  simp [PdfDoc.addPage, PdfDoc.draw, PdfDoc.pageList]

theorem pageList_foldDraw (ps : List (List Cmd)) (d : PdfDoc) :
    (ps.foldl (fun dd cs => (dd.addPage).draw cs) d).pageList = d.pageList ++ ps := by
  induction ps generalizing d with
  | nil => simp
  | cons cs ps ih =>
    rw [List.foldl_cons, ih, pageList_addPage_draw]
    simp

/-- The slide loop after the first slide: every further slide adds a page and
draws on it; the loop is the `mapM` of `renderSlide` followed by the pure
page-appending fold. -/
theorem buildGo (env : Env) (deck : Deck) (ss : List Slide) (d : PdfDoc) :
    List.foldlM
      (fun (st : PdfDoc × Bool) sl => do
        let dd := if st.2 then st.1 else st.1.addPage
        let cs ← renderSlide env deck sl
        pure (dd.draw cs, false))
      ((d, false) : PdfDoc × Bool) ss
    = (ss.mapM (renderSlide env deck)).map
        (fun ps => (ps.foldl (fun dd cs => (dd.addPage).draw cs) d, false)) := by
  induction ss generalizing d with
  | nil => rfl
  | cons s ss ih =>
    rw [List.foldlM_cons, List.mapM_cons]
    cases hr : renderSlide env deck s with
    | error e => rfl
    | ok cs =>
      show List.foldlM _ ((d.addPage).draw cs, false) ss = _
      rw [ih]
      cases hm : ss.mapM (renderSlide env deck) with
      | error e => rfl
      | ok ps => rfl

/-- `buildNativePdf` characterized on success: with no visible slide the fresh
single-page document is returned; otherwise the pages are exactly the
`renderSlide` outputs of the visible slides, in order. -/
theorem buildNativePdf_ok_pages (env : Env) (deck : Deck) (doc : PdfDoc)
    (h : buildNativePdf env deck = .ok doc) :
    (visibleSlides deck = [] ∧ doc = ⟨[], []⟩) ∨
    (visibleSlides deck ≠ [] ∧
      (visibleSlides deck).mapM (renderSlide env deck) = .ok doc.pageList) := by
  rw [show buildNativePdf env deck = (do
      let r ← (visibleSlides deck).foldlM
        (fun (st : PdfDoc × Bool) sl => do
          let dd := if st.2 then st.1 else st.1.addPage
          let cs ← renderSlide env deck sl
          pure (dd.draw cs, false))
        ((⟨[], []⟩ : PdfDoc), true)
      pure r.1) from rfl] at h
  cases hv : visibleSlides deck with
  | nil =>
    rw [hv] at h
    cases h
    exact Or.inl ⟨rfl, rfl⟩
  | cons s ss =>
    rw [hv, List.foldlM_cons] at h
    cases hr : renderSlide env deck s with
    | error e => rw [hr] at h; exact Except.noConfusion h
    | ok cs =>
      rw [hr] at h
      replace h : (do
          let r ← List.foldlM
            (fun (st : PdfDoc × Bool) sl => do
              let dd := if st.2 then st.1 else st.1.addPage
              let cs ← renderSlide env deck sl
              pure (dd.draw cs, false))
            (((⟨[], cs⟩ : PdfDoc), false) : PdfDoc × Bool) ss
          pure r.1) = Except.ok doc := h
      rw [buildGo] at h
      cases hm : ss.mapM (renderSlide env deck) with
      | error e => rw [hm] at h; exact Except.noConfusion h
      | ok ps =>
        rw [hm] at h
        cases h
        refine Or.inr ⟨by simp, ?_⟩
        rw [List.mapM_cons, hr, hm]
        have hp : (ps.foldl (fun (dd : PdfDoc) cs => (dd.addPage).draw cs)
            (⟨[], cs⟩ : PdfDoc)).pageList = cs :: ps := by
          rw [pageList_foldDraw]
          rfl
        rw [hp]
        rfl

/-- `buildNativePdf` fails as soon as rendering one visible slide fails. -/
theorem buildNativePdf_error (env : Env) (deck : Deck) (e : DrawErr)
    (h : (visibleSlides deck).mapM (renderSlide env deck) = .error e) :
    buildNativePdf env deck = .error e := by
  rw [show buildNativePdf env deck = (do
      let r ← (visibleSlides deck).foldlM
        (fun (st : PdfDoc × Bool) sl => do
          let dd := if st.2 then st.1 else st.1.addPage
          let cs ← renderSlide env deck sl
          pure (dd.draw cs, false))
        ((⟨[], []⟩ : PdfDoc), true)
      pure r.1) from rfl]
  cases hv : visibleSlides deck with
  | nil =>
    rw [hv, List.mapM_nil] at h
    exact Except.noConfusion h
  | cons s ss =>
    rw [hv, List.mapM_cons] at h
    rw [List.foldlM_cons]
    cases hr : renderSlide env deck s with
    | error e' =>
      rw [hr] at h
      cases h
      rfl
    | ok cs =>
      rw [hr] at h
      show (do
          let r ← List.foldlM
            (fun (st : PdfDoc × Bool) sl => do
              let dd := if st.2 then st.1 else st.1.addPage
              let cs ← renderSlide env deck sl
              pure (dd.draw cs, false))
            (((⟨[], cs⟩ : PdfDoc), false) : PdfDoc × Bool) ss
          pure r.1) = Except.error e
      rw [buildGo]
      cases hm : ss.mapM (renderSlide env deck) with
      | error e' =>
        rw [hm] at h
        cases h
        rfl
      | ok ps => rw [hm] at h; exact Except.noConfusion h

/-- The element loop of `renderSlide`: if the elements before `el` all draw
successfully and drawing `el` fails, the loop fails with `el`'s error, for any
accumulated commands. -/
theorem elementLoop_error (env : Env) (deck : Deck) (el : SlideElement)
    (post : List SlideElement) (e : DrawErr) :
    ∀ (pre : List SlideElement) (css : List (List Cmd)) (acc : List Cmd),
      pre.mapM (drawElement env deck) = .ok css →
      drawElement env deck el = .error e →
      List.foldlM
        (fun acc el => do
          let cs ← drawElement env deck el
          pure (acc ++ cs))
        acc (pre ++ el :: post) = .error e := by
  intro pre
  induction pre with
  | nil =>
    intro css acc _ h2
    rw [List.nil_append, List.foldlM_cons, h2]
    rfl
  | cons p pre ih =>
    intro css acc h1 h2
    rw [List.mapM_cons] at h1
    cases hp : drawElement env deck p with
    | error ep => rw [hp] at h1; exact Except.noConfusion h1
    | ok v =>
      rw [hp] at h1
      cases hm : pre.mapM (drawElement env deck) with
      | error em => rw [hm] at h1; exact Except.noConfusion h1
      | ok vs =>
        rw [List.cons_append, List.foldlM_cons, hp]
        show List.foldlM _ (acc ++ v) (pre ++ el :: post) = Except.error e
        exact ih vs (acc ++ v) hm h2

/-- `renderSlide` propagates the first element failure. -/
theorem renderSlide_error (env : Env) (deck : Deck) (hidden : Bool)
    (bg : Option Background) (pre : List SlideElement) (el : SlideElement)
    (post : List SlideElement) (e : DrawErr) (css : List (List Cmd))
    (h1 : pre.mapM (drawElement env deck) = .ok css)
    (h2 : drawElement env deck el = .error e) :
    renderSlide env deck ⟨hidden, bg, pre ++ el :: post⟩ = .error e :=
  elementLoop_error env deck el post e pre css _ h1 h2

/-- `drawImage` succeeds whenever the embed accepts the data; in particular
a failed fetch (`fetchB64 = none`) alone never aborts: the element degrades to
the resolved reference. -/
theorem drawImage_ok_of_accept (env : Env) (src : Str) (pos : Pos) (sz : Size)
    (h : env.addImageOk ((env.fetchB64 (env.resolveAsset src)).getD
      (env.resolveAsset src)) = true) :
    drawImage env src pos sz =
      .ok [Cmd.addImage ((env.fetchB64 (env.resolveAsset src)).getD (env.resolveAsset src))
        "PNG".data pos.x pos.y sz.w sz.h] := by
  simp only [drawImage, h]
  rfl

/-- `drawImage` fails only at the embed step. -/
theorem drawImage_error_iff (env : Env) (src : Str) (pos : Pos) (sz : Size) (e : DrawErr) :
    drawImage env src pos sz = .error e ↔
      e = .embedRejected ∧
      env.addImageOk ((env.fetchB64 (env.resolveAsset src)).getD (env.resolveAsset src))
        = false := by
  unfold drawImage
  cases h : env.addImageOk ((env.fetchB64 (env.resolveAsset src)).getD (env.resolveAsset src)) with
  | true => simp [h]
  | false => simp [h, eq_comm]

end Pdf

/-! ## Markdown line parser: classification lemmas -/

namespace MD

theorem isPrefixOf_head {a : Char} {as t : Str} (h : (a :: as).isPrefixOf t = true) :
    t.head? = some a := by
  obtain ⟨u, rfl⟩ := List.isPrefixOf_iff_prefix.mp h
  rfl

theorem headingMatch_some_head {t : Str} {l : Nat} {txt : Str}
    (h : headingMatch t = some (l, txt)) :
    t.head? = some '#' ∧ (l = 1 ∨ l = 2 ∨ l = 3) := by
  simp only [headingMatch] at h
  split at h
  · next hn =>
    constructor
    · cases t with
      | nil => simp at hn
      | cons c rest =>
        by_cases hc : c = '#'
        · simp [hc]
        · exfalso
          simp [List.takeWhile, hc] at hn
    · split at h
      · exact absurd h (by simp)
      · split at h
        · split at h
          · exact absurd h (by simp)
          · cases h
            omega
        · exact absurd h (by simp)
  · exact absurd h (by simp)

theorem headingMatch_none_of_head {t : Str} (h : t.head? ≠ some '#') :
    headingMatch t = none := by
  cases hm : headingMatch t with
  | none => rfl
  | some p =>
    exact absurd (headingMatch_some_head (show headingMatch t = some (p.1, p.2) by
      rw [hm])).1 h

theorem singleMath_some_head {t : Str} {m : Str} (h : singleMath t = some m) :
    t.head? = some '$' := by
  simp only [singleMath] at h
  split at h
  · next hc => exact isPrefixOf_head hc.2.1
  · exact absurd h (by simp)

theorem singleMath_none_of_head {t : Str} (h : t.head? ≠ some '$') :
    singleMath t = none := by
  cases hm : singleMath t with
  | none => rfl
  | some m => exact absurd (singleMath_some_head hm) h

/-- Per-line classification of the scale/bold fields: a parse step leaves the
already-emitted lines alone and emits at most one new line; the new line has
scale 1 and bold false unless the trimmed line matches heading syntax, in
which case scale and bold are determined by the heading level. -/
theorem parseStep_mem_scale (st : PState) (line : Str) (pl : ParsedLine)
    (h : pl ∈ (parseStep st line).parsed) :
    pl ∈ st.parsed ∨
    (headingMatch (trim line) = none ∧ pl.fontScale = 1 ∧ pl.isBold = false) ∨
    (∃ lvl txt, headingMatch (trim line) = some (lvl, txt) ∧
      pl.runs = parseInlineMarkdown txt ∧
      ((lvl = 1 ∧ pl.fontScale = 1.8 ∧ pl.isBold = true) ∨
       (lvl = 2 ∧ pl.fontScale = 1.4 ∧ pl.isBold = true) ∨
       (lvl = 3 ∧ pl.fontScale = 1.1 ∧ pl.isBold = false))) := by
  simp only [parseStep] at h
  split at h
  · next hqq =>
    split at h
    · exact Or.inl h
    · rcases List.mem_append.mp h with h1 | h2
      · exact Or.inl h1
      · simp only [List.mem_singleton] at h2
        subst h2
        refine Or.inr (Or.inl ⟨?_, rfl, rfl⟩)
        rw [hqq]
        decide
  · next hqq =>
    split at h
    · exact Or.inl h
    · split at h
      · next m hsm =>
        rcases List.mem_append.mp h with h1 | h2
        · exact Or.inl h1
        · simp only [List.mem_singleton] at h2
          subst h2
          refine Or.inr (Or.inl ⟨?_, rfl, rfl⟩)
          exact headingMatch_none_of_head (by rw [singleMath_some_head hsm]; decide)
      · split at h
        · exact Or.inl h
        · split at h
          · next lvl txt hhm =>
            rcases List.mem_append.mp h with h1 | h2
            · exact Or.inl h1
            · simp only [List.mem_singleton] at h2
              subst h2
              refine Or.inr (Or.inr ⟨lvl, txt, hhm, rfl, ?_⟩)
              obtain ⟨-, hl⟩ := headingMatch_some_head hhm
              rcases hl with rfl | rfl | rfl
              · exact Or.inl ⟨rfl, by norm_num [headingScale], rfl⟩
              · exact Or.inr (Or.inl ⟨rfl, by norm_num [headingScale], rfl⟩)
              · exact Or.inr (Or.inr ⟨rfl, by norm_num [headingScale], rfl⟩)
          · next hhm =>
            split at h
            · rcases List.mem_append.mp h with h1 | h2
              · exact Or.inl h1
              · simp only [List.mem_singleton] at h2
                subst h2
                exact Or.inr (Or.inl ⟨hhm, rfl, rfl⟩)
            · rcases List.mem_append.mp h with h1 | h2
              · exact Or.inl h1
              · simp only [List.mem_singleton] at h2
                subst h2
                exact Or.inr (Or.inl ⟨hhm, rfl, rfl⟩)

/-- Per-line classification of the bullet/indent fields: a newly emitted line
carries the sentinel indent -1 exactly when its bullet flag is set, and
indent 0 otherwise. -/
theorem parseStep_mem_bullet (st : PState) (line : Str) (pl : ParsedLine)
    (h : pl ∈ (parseStep st line).parsed) :
    pl ∈ st.parsed ∨
    (pl.bullet = true ∧ pl.indent = -1) ∨ (pl.bullet = false ∧ pl.indent = 0) := by
  simp only [parseStep] at h
  split at h
  · split at h
    · exact Or.inl h
    · rcases List.mem_append.mp h with h1 | h2
      · exact Or.inl h1
      · simp only [List.mem_singleton] at h2
        subst h2
        exact Or.inr (Or.inr ⟨rfl, rfl⟩)
  · split at h
    · exact Or.inl h
    · split at h
      · rcases List.mem_append.mp h with h1 | h2
        · exact Or.inl h1
        · simp only [List.mem_singleton] at h2
          subst h2
          exact Or.inr (Or.inr ⟨rfl, rfl⟩)
      · split at h
        · exact Or.inl h
        · split at h
          · rcases List.mem_append.mp h with h1 | h2
            · exact Or.inl h1
            · simp only [List.mem_singleton] at h2
              subst h2
              exact Or.inr (Or.inr ⟨rfl, rfl⟩)
          · split at h
            · rcases List.mem_append.mp h with h1 | h2
              · exact Or.inl h1
              · simp only [List.mem_singleton] at h2
                subst h2
                exact Or.inr (Or.inl ⟨rfl, rfl⟩)
            · rcases List.mem_append.mp h with h1 | h2
              · exact Or.inl h1
              · simp only [List.mem_singleton] at h2
                subst h2
                exact Or.inr (Or.inr ⟨rfl, rfl⟩)

/-- Lifting a per-step classification through the whole fold. -/
theorem parseLines_invariant (P : ParsedLine → Prop)
    (hstep : ∀ st line pl, pl ∈ (parseStep st line).parsed → pl ∈ st.parsed ∨ P pl) :
    ∀ (ls : List Str) (st : PState) (pl : ParsedLine),
      pl ∈ (ls.foldl parseStep st).parsed → pl ∈ st.parsed ∨ P pl := by
  intro ls
  induction ls with
  | nil => intro st pl h; exact Or.inl h
  | cons l ls ih =>
    intro st pl h
    rcases ih (parseStep st l) pl h with h1 | h2
    · exact hstep st l pl h1
    · exact Or.inr h2

theorem splitNl_no_nl {t : Str} (h : '\n' ∉ t) : splitNl t = [t] := by
  induction t with
  | nil => rfl
  | cons c rest ih =>
    have hc : ¬ c = '\n' := fun hcc => h (hcc ▸ List.mem_cons_self c rest)
    have hr : splitNl rest = [rest] := ih (fun hm => h (List.mem_cons_of_mem c hm))
    simp only [splitNl, if_neg hc, hr]

/-- On a single physical line the parser is its per-line step from the fresh
state. -/
theorem parseMarkdownLines_single {t : Str} (h : '\n' ∉ t) :
    parseMarkdownLines t = (parseStep ⟨[], none⟩ t).parsed := by
  simp [parseMarkdownLines, parseLines, splitNl_no_nl h]

/-- A single line whose trimmed form matches heading syntax parses to exactly
one heading line. -/
theorem parseMarkdownLines_heading {t : Str} {lvl : Nat} {txt : Str} (hnl : '\n' ∉ t)
    (hm : headingMatch (trim t) = some (lvl, txt)) :
    parseMarkdownLines t =
      [⟨parseInlineMarkdown txt, 0, false, headingScale lvl, decide (lvl ≤ 2), none⟩] := by
  rw [parseMarkdownLines_single hnl]
  have hhash := (headingMatch_some_head hm).1
  have h1 : ¬ trim t = ['$', '$'] := by
    intro hc
    rw [hc] at hhash
    simp at hhash
  have h2 : singleMath (trim t) = none :=
    singleMath_none_of_head (by rw [hhash]; decide)
  have h3 : ¬ trim t = [] := by
    intro hc
    rw [hc] at hhash
    simp at hhash
  simp only [parseStep, if_neg h1, h2, if_neg h3, hm, List.nil_append]

/-- A single line whose trimmed form starts with `- ` or `* ` parses to
exactly one bullet line with the sentinel indent. -/
theorem parseMarkdownLines_bullet {t : Str} (hnl : '\n' ∉ t)
    (hb : ['-', ' '].isPrefixOf (trim t) = true ∨ ['*', ' '].isPrefixOf (trim t) = true) :
    parseMarkdownLines t =
      [⟨parseInlineMarkdown ((trim t).drop 2), -1, true, 1, false, none⟩] := by
  rw [parseMarkdownLines_single hnl]
  have hhead : (trim t).head? = some '-' ∨ (trim t).head? = some '*' := by
    rcases hb with hb | hb
    · exact Or.inl (isPrefixOf_head hb)
    · exact Or.inr (isPrefixOf_head hb)
  have h1 : ¬ trim t = ['$', '$'] := by
    intro hc
    rw [hc] at hhead
    simp at hhead
  have h2 : singleMath (trim t) = none := by
    refine singleMath_none_of_head ?_
    rcases hhead with hh | hh <;> rw [hh] <;> decide
  have h3 : ¬ trim t = [] := by
    intro hc
    rw [hc] at hhead
    simp at hhead
  have h4 : headingMatch (trim t) = none := by
    refine headingMatch_none_of_head ?_
    rcases hhead with hh | hh <;> rw [hh] <;> decide
  simp only [parseStep, if_neg h1, h2, if_neg h3, h4, if_pos hb, List.nil_append]

end MD

/-! ## Inline tokenizer: decomposition of the scan (claim C3) -/

namespace MD

theorem findInner_decomp (close : Str) :
    ∀ (cs inner : Str) (r : {rem : Str // rem.length < cs.length}),
      findInner close cs = some (inner, r) →
      cs = inner ++ close ++ r.val ∧ inner ≠ [] := by
  intro cs
  induction cs with
  | nil => intro inner r heq; exact Option.noConfusion heq
  | cons c rest ih =>
    intro inner r heq
    simp only [findInner] at heq
    split at heq
    · exact Option.noConfusion heq
    · split at heq
      · next hpre =>
        rw [Option.some.injEq, Prod.mk.injEq] at heq
        obtain ⟨hi, hr⟩ := heq
        subst hi
        subst hr
        have hd := prefix_decomp hpre
        refine ⟨?_, by simp⟩
        show c :: rest = [c] ++ close ++ rest.drop close.length
        conv_lhs => rw [hd]
        simp
      · split at heq
        · next innerX remX hltX heq2 =>
          rw [Option.some.injEq, Prod.mk.injEq] at heq
          obtain ⟨hi, hr⟩ := heq
          subst hi
          subst hr
          obtain ⟨h1, h2⟩ := ih innerX ⟨remX, hltX⟩ heq2
          refine ⟨?_, by simp⟩
          show c :: rest = (c :: innerX) ++ close ++ remX
          conv_lhs => rw [h1]
          simp
        · exact Option.noConfusion heq

theorem tryDelim_decomp (d : Delim) (cs : Str) (d' : Delim) (inner : Str)
    (r : {rem : Str // rem.length < cs.length})
    (h : tryDelim d cs = some (d', inner, r)) :
    d' = d ∧ cs = d.marker ++ inner ++ d.marker ++ r.val ∧ inner ≠ [] := by
  simp only [tryDelim] at h
  split at h
  · next hpre =>
    split at h
    · next innerX remX hltX heq2 =>
      rw [Option.some.injEq, Prod.mk.injEq, Prod.mk.injEq] at h
      obtain ⟨hd, hi, hr⟩ := h
      subst hd
      subst hi
      subst hr
      obtain ⟨h1, h2⟩ := findInner_decomp d.marker _ innerX ⟨remX, hltX⟩ heq2
      refine ⟨rfl, ?_, h2⟩
      show cs = d.marker ++ innerX ++ d.marker ++ remX
      conv_lhs => rw [prefix_decomp hpre, h1]
      simp
    · exact Option.noConfusion h
  · exact Option.noConfusion h

theorem tryAt_decomp :
    ∀ (ds : List Delim) (cs : Str) (d : Delim) (inner : Str)
      (r : {rem : Str // rem.length < cs.length}),
      tryAt ds cs = some (d, inner, r) →
      d ∈ ds ∧ cs = d.marker ++ inner ++ d.marker ++ r.val ∧ inner ≠ [] := by
  intro ds
  induction ds with
  | nil => intro cs d inner r h; exact Option.noConfusion h
  | cons d0 ds' ih =>
    intro cs d inner r h
    simp only [tryAt] at h
    split at h
    · next r0 heq =>
      rw [Option.some.injEq] at h
      subst h
      obtain ⟨hd, h2, h3⟩ := tryDelim_decomp d0 cs d inner r heq
      subst hd
      exact ⟨List.mem_cons_self _ _, h2, h3⟩
    · obtain ⟨h1, h2, h3⟩ := ih cs d inner r h
      exact ⟨List.mem_cons_of_mem _ h1, h2, h3⟩

theorem findFrom_decomp (ds : List Delim) :
    ∀ (cs gap : Str) (d : Delim) (inner : Str)
      (r : {rem : Str // rem.length < cs.length}),
      findFrom ds cs = some (gap, d, inner, r) →
      d ∈ ds ∧ cs = gap ++ d.marker ++ inner ++ d.marker ++ r.val ∧ inner ≠ [] := by
  intro cs
  induction cs with
  | nil => intro gap d inner r h; exact Option.noConfusion h
  | cons c rest ih =>
    intro gap d inner r h
    simp only [findFrom] at h
    split at h
    · next d0 inner0 rem0 heq =>
      rw [Option.some.injEq, Prod.mk.injEq, Prod.mk.injEq, Prod.mk.injEq] at h
      obtain ⟨hg, hd, hi, hr⟩ := h
      subst hg
      subst hd
      subst hi
      subst hr
      obtain ⟨h1, h2, h3⟩ := tryAt_decomp ds _ _ _ _ heq
      exact ⟨h1, by simpa using h2, h3⟩
    · split at h
      · next gapX dX innerX remX hltX heq2 =>
        rw [Option.some.injEq, Prod.mk.injEq, Prod.mk.injEq, Prod.mk.injEq] at h
        obtain ⟨hg, hd, hi, hr⟩ := h
        subst hg
        subst hd
        subst hi
        subst hr
        obtain ⟨h1, h2, h3⟩ := ih gapX dX innerX ⟨remX, hltX⟩ heq2
        refine ⟨h1, ?_, h3⟩
        show c :: rest = (c :: gapX) ++ dX.marker ++ innerX ++ dX.marker ++ remX
        conv_lhs => rw [h2]
        simp
      · exact Option.noConfusion h

theorem toRun_text (d : Delim) (t : Str) : (d.toRun t).text = t := by
  cases d <;> rfl

/-- The gap/match decomposition computed by the scan, together with the
concatenation and no-empty-run facts. -/
theorem scanRuns_spec (ds : List Delim) :
    ∀ (n : Nat) (cs : Str), cs.length ≤ n →
      (∃ (segs : List (Str × Delim × Str)) (tail : Str),
        cs = (segs.map fun s => s.1 ++ s.2.1.marker ++ s.2.2 ++ s.2.1.marker).flatten ++ tail ∧
        joinRunTexts (scanRuns ds cs) = (segs.map fun s => s.1 ++ s.2.2).flatten ++ tail) ∧
      (∀ r ∈ scanRuns ds cs, r.text ≠ []) := by
  intro n
  induction n with
  | zero =>
    intro cs hle
    have hnil : cs = [] := List.eq_nil_of_length_eq_zero (Nat.le_zero.mp hle)
    subst hnil
    refine ⟨⟨[], [], by simp, ?_⟩, ?_⟩
    · rw [show scanRuns ds [] = if ([] : Str) = [] then [] else [plainRun []] by
        rw [scanRuns]; rfl]
      simp [joinRunTexts]
    · rw [show scanRuns ds [] = if ([] : Str) = [] then [] else [plainRun []] by
        rw [scanRuns]; rfl]
      simp
  | succ n ih =>
    intro cs hle
    rw [scanRuns]
    cases hf : findFrom ds cs with
    | none =>
      by_cases hcs : cs = []
      · subst hcs
        exact ⟨⟨[], [], by simp, by simp [joinRunTexts]⟩, by simp⟩
      · refine ⟨⟨[], cs, by simp, by simp [hcs, joinRunTexts, plainRun]⟩, ?_⟩
        simp only [if_neg hcs]
        intro r hr
        rcases List.mem_singleton.mp hr with rfl
        simpa [plainRun] using hcs
    | some res =>
      obtain ⟨gap, d, inner, rem, hlt⟩ := res
      obtain ⟨hmem, hdec, hinner⟩ := findFrom_decomp ds cs gap d inner ⟨rem, hlt⟩ hf
      have hremle : rem.length ≤ n := by
        have := hlt
        omega
      obtain ⟨⟨segs', tail', hdec', hjoin'⟩, hne'⟩ := ih rem hremle
      have hdec2 : cs = gap ++ d.marker ++ inner ++ d.marker ++ rem := hdec
      constructor
      · refine ⟨(gap, d, inner) :: segs', tail', ?_, ?_⟩
        · rw [hdec2, hdec']
          simp
        · rw [show joinRunTexts
              ((if gap = [] then [] else [plainRun gap]) ++ d.toRun inner :: scanRuns ds rem)
              = gap ++ inner ++ joinRunTexts (scanRuns ds rem) by
            by_cases hg : gap = [] <;>
              simp [hg, joinRunTexts, plainRun, toRun_text]]
          rw [hjoin']
          simp
      · intro r hr
        rcases List.mem_append.mp hr with h1 | h2
        · by_cases hg : gap = []
          · rw [if_pos hg] at h1
            simp at h1
          · rw [if_neg hg] at h1
            rcases List.mem_singleton.mp h1 with rfl
            simpa [plainRun] using hg
        · rcases List.mem_cons.mp h2 with rfl | h3
          · rw [toRun_text]
            exact hinner
          · exact hne' r h3

end MD

/-- Claim C3: for every input line, the texts of the runs returned by
`parseInlineMarkdown` concatenate back to the input with the delimiter
markers of each matched span removed: the input decomposes into gaps and
delimited spans, and the output is the same decomposition with the markers
dropped.  No returned run has empty text, except the single empty run
returned for a wholly-empty input line. -/
theorem claim_C3 (text : Str) :
    (∃ (segs : List (Str × MD.Delim × Str)) (tail : Str),
      text =
        (segs.map fun s => s.1 ++ s.2.1.marker ++ s.2.2 ++ s.2.1.marker).flatten ++ tail ∧
      MD.joinRunTexts (MD.parseInlineMarkdown text) =
        (segs.map fun s => s.1 ++ s.2.2).flatten ++ tail) ∧
    (MD.parseInlineMarkdown [] = [MD.plainRun []]) ∧
    (text ≠ [] → ∀ r ∈ MD.parseInlineMarkdown text, r.text ≠ []) := by
  obtain ⟨⟨segs, tail, hdec, hjoin⟩, hne⟩ :=
    MD.scanRuns_spec MD.mdDelims text.length text (le_refl _)
  refine ⟨?_, by rw [MD.parseInlineMarkdown, show MD.scanRuns MD.mdDelims [] = [] by
      rw [MD.scanRuns]; rfl], ?_⟩
  · cases hs : MD.scanRuns MD.mdDelims text with
    | nil =>
      refine ⟨[], text, by simp, ?_⟩
      rw [MD.parseInlineMarkdown, hs]
      simp [MD.joinRunTexts, MD.plainRun]
    | cons r rs =>
      refine ⟨segs, tail, hdec, ?_⟩
      rw [MD.parseInlineMarkdown, hs]
      show MD.joinRunTexts (r :: rs) = _
      rw [← hs, hjoin]
  · intro hne2 r hr
    rw [MD.parseInlineMarkdown] at hr
    cases hs : MD.scanRuns MD.mdDelims text with
    | nil =>
      rw [hs] at hr
      rcases List.mem_singleton.mp hr with rfl
      simpa [MD.plainRun] using hne2
    | cons r0 rs =>
      rw [hs] at hr
      exact hne r (hs ▸ hr)

/-- Witness for C3 at the line `a **b** c`. -/
theorem claim_C3_witness :
    ("a **b** c".data ≠ []) ∧
    (∀ r ∈ MD.parseInlineMarkdown "a **b** c".data, r.text ≠ []) :=
  ⟨by decide, (claim_C3 "a **b** c".data).2.2 (by decide)⟩

/-! ## Claims C4 and C5 -/

/-- Claim C4: a line matching heading syntax (1–3 leading `#`, whitespace,
text — the parser classifies the trimmed physical line) parses to a single
ParsedLine with fontScale 1.8 / 1.4 / 1.1 and forced-bold true / true / false
for levels 1 / 2 / 3; a newly emitted line from a non-heading line always has
fontScale 1 and forced-bold false; and every line ever emitted carries one of
these four scale/bold combinations. -/
theorem claim_C4 :
    (∀ (t : Str) (lvl : Nat) (txt : Str), '\n' ∉ t →
      MD.headingMatch (trim t) = some (lvl, txt) →
      ∃ pl, MD.parseMarkdownLines t = [pl] ∧ pl.runs = MD.parseInlineMarkdown txt ∧
        pl.blockMath = none ∧
        ((lvl = 1 ∧ pl.fontScale = 1.8 ∧ pl.isBold = true) ∨
         (lvl = 2 ∧ pl.fontScale = 1.4 ∧ pl.isBold = true) ∨
         (lvl = 3 ∧ pl.fontScale = 1.1 ∧ pl.isBold = false))) ∧
    (∀ (st : MD.PState) (line : Str) (pl : MD.ParsedLine),
      pl ∈ (MD.parseStep st line).parsed → pl ∉ st.parsed →
      MD.headingMatch (trim line) = none → pl.fontScale = 1 ∧ pl.isBold = false) ∧
    (∀ (src : Str) (pl : MD.ParsedLine), pl ∈ MD.parseMarkdownLines src →
      (pl.fontScale = 1 ∧ pl.isBold = false) ∨ (pl.fontScale = 1.8 ∧ pl.isBold = true) ∨
      (pl.fontScale = 1.4 ∧ pl.isBold = true) ∨ (pl.fontScale = 1.1 ∧ pl.isBold = false)) := by
  refine ⟨?_, ?_, ?_⟩
  · intro t lvl txt hnl hm
    refine ⟨_, MD.parseMarkdownLines_heading hnl hm, rfl, rfl, ?_⟩
    obtain ⟨-, hl⟩ := MD.headingMatch_some_head hm
    rcases hl with rfl | rfl | rfl
    · exact Or.inl ⟨rfl, by norm_num [MD.headingScale], rfl⟩
    · exact Or.inr (Or.inl ⟨rfl, by norm_num [MD.headingScale], rfl⟩)
    · exact Or.inr (Or.inr ⟨rfl, by norm_num [MD.headingScale], rfl⟩)
  · intro st line pl hmem hnew hnone
    rcases MD.parseStep_mem_scale st line pl hmem with h1 | ⟨-, h2⟩ | ⟨lvl, txt, hsome, -⟩
    · exact absurd h1 hnew
    · exact h2
    · rw [hnone] at hsome
      exact Option.noConfusion hsome
  · intro src pl hmem
    have := MD.parseLines_invariant
      (fun pl => (pl.fontScale = 1 ∧ pl.isBold = false) ∨ (pl.fontScale = 1.8 ∧ pl.isBold = true) ∨
        (pl.fontScale = 1.4 ∧ pl.isBold = true) ∨ (pl.fontScale = 1.1 ∧ pl.isBold = false))
      (fun st line pl h => by
        rcases MD.parseStep_mem_scale st line pl h with h1 | ⟨-, h2a, h2b⟩ | ⟨lvl, txt, -, -, h3⟩
        · exact Or.inl h1
        · exact Or.inr (Or.inl ⟨h2a, h2b⟩)
        · rcases h3 with ⟨-, ha, hb⟩ | ⟨-, ha, hb⟩ | ⟨-, ha, hb⟩
          · exact Or.inr (Or.inr (Or.inl ⟨ha, hb⟩))
          · exact Or.inr (Or.inr (Or.inr (Or.inl ⟨ha, hb⟩)))
          · exact Or.inr (Or.inr (Or.inr (Or.inr ⟨ha, hb⟩))))
      (splitNl src) ⟨[], none⟩ pl hmem
    rcases this with h1 | h2
    · simp at h1
    · exact h2

/-- Witness for C4 at the inputs of the repository's own test
(`# H1`, `## H2`, `### H3`, `normal`, parsed line by line). -/
theorem claim_C4_witness :
    ('\n' ∉ "# H1".data) ∧ MD.headingMatch (trim "# H1".data) = some (1, "H1".data) ∧
    (∃ pl, MD.parseMarkdownLines "# H1".data = [pl] ∧
      pl.runs = MD.parseInlineMarkdown "H1".data ∧ pl.blockMath = none ∧
      ((1 = 1 ∧ pl.fontScale = 1.8 ∧ pl.isBold = true) ∨
       (1 = 2 ∧ pl.fontScale = 1.4 ∧ pl.isBold = true) ∨
       (1 = 3 ∧ pl.fontScale = 1.1 ∧ pl.isBold = false))) :=
  ⟨by decide, by decide, claim_C4.1 "# H1".data 1 "H1".data (by decide) (by decide)⟩

/-- Claim C5: a line whose trimmed form starts with `- ` or `* ` (the parser
classifies the trimmed physical line) parses to a single ParsedLine with the
sentinel indent -1 and bullet flag true; and no emitted ParsedLine of a
non-bullet line ever carries the sentinel indent: bullet lines have indent -1
and non-bullet lines indent 0, always. -/
theorem claim_C5 :
    (∀ t : Str, '\n' ∉ t →
      (['-', ' '].isPrefixOf (trim t) = true ∨ ['*', ' '].isPrefixOf (trim t) = true) →
      MD.parseMarkdownLines t =
        [⟨MD.parseInlineMarkdown ((trim t).drop 2), -1, true, 1, false, none⟩]) ∧
    (∀ (src : Str) (pl : MD.ParsedLine), pl ∈ MD.parseMarkdownLines src →
      (pl.bullet = true → pl.indent = -1) ∧ (pl.bullet = false → pl.indent = 0)) := by
  refine ⟨fun t hnl hb => MD.parseMarkdownLines_bullet hnl hb, ?_⟩
  intro src pl hmem
  have := MD.parseLines_invariant
    (fun pl => (pl.bullet = true ∧ pl.indent = -1) ∨ (pl.bullet = false ∧ pl.indent = 0))
    (fun st line pl h => MD.parseStep_mem_bullet st line pl h)
    (splitNl src) ⟨[], none⟩ pl hmem
  rcases this with h1 | ⟨hb, hi⟩ | ⟨hb, hi⟩
  · simp at h1
  · exact ⟨fun _ => hi, fun hc => by rw [hb] at hc; exact Bool.noConfusion hc⟩
  · exact ⟨fun hc => by rw [hb] at hc; exact Bool.noConfusion hc, fun _ => hi⟩

/-- Witness for C5 at the test input `- a`. -/
theorem claim_C5_witness :
    ('\n' ∉ "- a".data) ∧
    (['-', ' '].isPrefixOf (trim "- a".data) = true ∨
      ['*', ' '].isPrefixOf (trim "- a".data) = true) ∧
    MD.parseMarkdownLines "- a".data =
      [⟨MD.parseInlineMarkdown ((trim "- a".data).drop 2), -1, true, 1, false, none⟩] :=
  ⟨by decide, Or.inl (by decide),
    claim_C5.1 "- a".data (by decide) (Or.inl (by decide))⟩

/-! ## Claim C8 -/

theorem splitNl_ne_nil (s : Str) : splitNl s ≠ [] := by
  cases s with
  | nil => simp [splitNl]
  | cons c rest =>
    simp only [splitNl]
    split
    · simp
    · split
      · simp
      · simp

theorem splitNl_append_nl {l : Str} (h : '\n' ∉ l) (rest : Str) :
    splitNl (l ++ '\n' :: rest) = l :: splitNl rest := by
  induction l with
  | nil => simp [splitNl]
  | cons c l ih =>
    have hc : ¬ c = '\n' := fun hcc => h (hcc ▸ List.mem_cons_self c l)
    have hl : splitNl (l ++ '\n' :: rest) = l :: splitNl rest :=
      ih (fun hm => h (List.mem_cons_of_mem c hm))
    simp [splitNl, if_neg hc, hl]

theorem splitNl_joinNl : ∀ {ls : List Str}, ls ≠ [] → (∀ l ∈ ls, '\n' ∉ l) →
    splitNl (joinNl ls) = ls := by
  intro ls
  induction ls with
  | nil => intro h _; exact absurd rfl h
  | cons l ls ih =>
    intro _ h
    cases ls with
    | nil => exact MD.splitNl_no_nl (h l (List.mem_cons_self l []))
    | cons l2 ls2 =>
      rw [show joinNl (l :: l2 :: ls2) = l ++ '\n' :: joinNl (l2 :: ls2) from rfl]
      rw [splitNl_append_nl (h l (List.mem_cons_self l _))]
      rw [ih (by simp) (fun x hx => h x (List.mem_cons_of_mem l hx))]

/-- Inside an open block-math buffer, every line that does not trim to `$$` is
appended to the buffer verbatim and nothing is emitted. -/
theorem mathBuf_absorb :
    ∀ (after : List Str) (parsed : List MD.ParsedLine) (buf : List Str),
      (∀ l ∈ after, trim l ≠ ['$', '$']) →
      after.foldl MD.parseStep ⟨parsed, some buf⟩ = ⟨parsed, some (buf ++ after)⟩ := by
  intro after
  induction after with
  | nil => intro parsed buf _; simp
  | cons l after ih =>
    intro parsed buf h
    have hl : ¬ trim l = ['$', '$'] := h l (List.mem_cons_self l after)
    rw [List.foldl_cons]
    rw [show MD.parseStep ⟨parsed, some buf⟩ l = ⟨parsed, some (buf ++ [l])⟩ by
      simp only [MD.parseStep, if_neg hl]]
    rw [ih parsed (buf ++ [l]) (fun x hx => h x (List.mem_cons_of_mem l hx))]
    simp

/-- Claim C8: an opening `$$` line with no matching closing `$$` line makes
the parser silently absorb every subsequent line into the block-math buffer:
parsing the input is parsing the content before the opening `$$` (no
ParsedLine — neither a blockMath line nor text lines — is emitted for the
absorbed content), the final state's buffer holds exactly the absorbed lines,
and no error is raised (the parser is total). -/
theorem claim_C8 (before after : List Str) (l0 : Str)
    (hb : ∀ l ∈ before, '\n' ∉ l) (h0 : '\n' ∉ l0) (ha : ∀ l ∈ after, '\n' ∉ l)
    (ht0 : trim l0 = ['$', '$'])
    (hclosed : (MD.parseLines before).mathBuf = none)
    (hnoclose : ∀ l ∈ after, trim l ≠ ['$', '$']) :
    MD.parseMarkdownLines (joinNl (before ++ l0 :: after)) =
      MD.parseMarkdownLines (joinNl before) ∧
    ((before ++ l0 :: after).foldl MD.parseStep ⟨[], none⟩).mathBuf = some after := by
  have hsplit : splitNl (joinNl (before ++ l0 :: after)) = before ++ l0 :: after := by
    refine splitNl_joinNl (by simp) ?_
    intro l hl
    rcases List.mem_append.mp hl with h1 | h2
    · exact hb l h1
    · rcases List.mem_cons.mp h2 with rfl | h3
      · exact h0
      · exact ha l h3
  have hstep : MD.parseStep (MD.parseLines before) l0 =
      ⟨(MD.parseLines before).parsed, some []⟩ := by
    simp only [MD.parseStep, ht0, if_pos, hclosed]
  have hfold : (before ++ l0 :: after).foldl MD.parseStep ⟨[], none⟩ =
      ⟨(MD.parseLines before).parsed, some after⟩ := by
    rw [List.foldl_append, List.foldl_cons]
    rw [show before.foldl MD.parseStep ⟨[], none⟩ = MD.parseLines before from rfl]
    rw [hstep, mathBuf_absorb after _ [] hnoclose]
    simp
  constructor
  · rw [MD.parseMarkdownLines, MD.parseLines, hsplit, hfold]
    by_cases hbe : before = []
    · subst hbe
      rfl
    · have hbefore : splitNl (joinNl before) = before := splitNl_joinNl hbe hb
      rw [MD.parseMarkdownLines, MD.parseLines, hbefore, ← MD.parseLines]
  · rw [hfold]

/-- Witness for C8 at the test-style input `text`, `$$`, `x^2`, `tail`
(the `$$` block never closes). -/
theorem claim_C8_witness :
    (∀ l ∈ ["text".data], '\n' ∉ l) ∧
    ('\n' ∉ "$$".data) ∧
    (∀ l ∈ ["x^2".data, "tail".data], '\n' ∉ l) ∧
    trim "$$".data = ['$', '$'] ∧
    (MD.parseLines ["text".data]).mathBuf = none ∧
    (∀ l ∈ ["x^2".data, "tail".data], trim l ≠ ['$', '$']) ∧
    (MD.parseMarkdownLines (joinNl (["text".data] ++ "$$".data :: ["x^2".data, "tail".data])) =
      MD.parseMarkdownLines (joinNl ["text".data]) ∧
    ((["text".data] ++ "$$".data :: ["x^2".data, "tail".data]).foldl
        MD.parseStep ⟨[], none⟩).mathBuf = some ["x^2".data, "tail".data]) :=
  ⟨by decide, by decide, by decide, by decide, by decide, by decide,
    claim_C8 ["text".data] ["x^2".data, "tail".data] "$$".data
      (by decide) (by decide) (by decide) (by decide) (by decide) (by decide)⟩

/-! ## Claim C6 -/

namespace Pdf

/-- Every visual line the wrap loop emits keeps its accumulated width within
the available width, or is a single unit. -/
theorem wrapWords_bound (m : Measure) (avail indent : ℚ) :
    ∀ (words cur : List Seg) (cw : ℚ) (b : Bool),
      cw = sumWidths m cur →
      (cur ≠ [] → sumWidths m cur ≤ avail ∨ cur.length = 1) →
      ∀ vl ∈ wrapWords m avail indent words cur cw b,
        sumWidths m vl.segments ≤ avail ∨ vl.segments.length = 1 := by
  intro words
  induction words with
  | nil =>
    intro cur cw b hcw hcur vl hvl
    simp only [wrapWords] at hvl
    split at hvl
    · simp at hvl
    · next hne =>
      simp only [List.mem_singleton] at hvl
      subst hvl
      exact hcur hne
  | cons w ws ih =>
    intro cur cw b hcw hcur vl hvl
    simp only [wrapWords] at hvl
    split at hvl
    · next hover =>
      split at hvl
      · rcases List.mem_cons.mp hvl with rfl | h2
        · exact hcur hover.2
        · exact ih [] 0 false (by simp [sumWidths]) (by simp) vl h2
      · rcases List.mem_cons.mp hvl with rfl | h2
        · exact hcur hover.2
        · refine ih [w] (segWidth m w) false (by simp [sumWidths]) (fun _ => Or.inr rfl) vl h2
    · next hok =>
      refine ih (cur ++ [w]) (cw + segWidth m w) b ?_ ?_ vl hvl
      · simp [sumWidths, hcw]
      · intro _
        rcases Decidable.not_and_iff_or_not.mp hok with h1 | h2
        · refine Or.inl ?_
          have : cw + segWidth m w ≤ avail := le_of_not_lt h1
          simpa [sumWidths, hcw] using this
        · have : cur = [] := Decidable.not_not.mp h2
          subst this
          exact Or.inr rfl

/-- Every visual line carries the indent of the parsed line it wraps. -/
theorem wrapWords_indent (m : Measure) (avail indent : ℚ) :
    ∀ (words cur : List Seg) (cw : ℚ) (b : Bool),
      ∀ vl ∈ wrapWords m avail indent words cur cw b, vl.indent = indent := by
  intro words
  induction words with
  | nil =>
    intro cur cw b vl hvl
    simp only [wrapWords] at hvl
    split at hvl
    · simp at hvl
    · simp only [List.mem_singleton] at hvl
      subst hvl
      rfl
  | cons w ws ih =>
    intro cur cw b vl hvl
    simp only [wrapWords] at hvl
    split at hvl
    · split at hvl
      · rcases List.mem_cons.mp hvl with rfl | h2
        · rfl
        · exact ih [] 0 false vl h2
      · rcases List.mem_cons.mp hvl with rfl | h2
        · rfl
        · exact ih [w] (segWidth m w) false vl h2
    · exact ih (cur ++ [w]) (cw + segWidth m w) b vl hvl

end Pdf

/-- Claim C6: for every ParsedLine sequence and every width-measure function,
each VisualLine produced by the greedy word-wrap in drawText has summed
measured segment width at most the available width — the padded box width
(box width minus the horizontal padding of 4 on each side) minus the line's
indent — except when the VisualLine consists of a single unit whose own
measured width exceeds the available width. -/
theorem claim_C6 (m : Pdf.Measure) (pdfFont : Str) (baseFontSize w : ℚ)
    (pls : List Pdf.ParsedLine) :
    ∀ vl ∈ Pdf.buildVisualLines m pdfFont baseFontSize (w - 4 * 2) pls,
      Pdf.sumWidths m vl.segments ≤ (w - 4 * 2) - vl.indent ∨
      (vl.segments.length = 1 ∧
        (w - 4 * 2) - vl.indent < Pdf.sumWidths m vl.segments) := by
  intro vl hvl
  rw [Pdf.buildVisualLines, List.mem_flatMap] at hvl
  obtain ⟨pl, hpl, hmem⟩ := hvl
  have hind : vl.indent = pl.indent :=
    Pdf.wrapWords_indent m ((w - 4 * 2) - pl.indent) pl.indent _ [] 0 pl.bullet vl hmem
  have hbound := Pdf.wrapWords_bound m ((w - 4 * 2) - pl.indent) pl.indent _ [] 0 pl.bullet
    (by simp [Pdf.sumWidths]) (by simp) vl hmem
  rw [hind]
  rcases hbound with h1 | h2
  · exact Or.inl h1
  · by_cases h3 : Pdf.sumWidths m vl.segments ≤ (w - 4 * 2) - pl.indent
    · exact Or.inl h3
    · exact Or.inr ⟨h2, lt_of_not_le h3⟩

/-- Witness for C6: measuring by character count with box width 12 (available
width 4), the line `ab cd` wraps into `ab ` (width 3 ≤ 4) and `cd`. -/
theorem claim_C6_witness :
    (⟨[⟨"ab".data, "helvetica".data, "normal".data, 24⟩,
       ⟨" ".data, "helvetica".data, "normal".data, 24⟩], 0, false⟩ : Pdf.VisualLine) ∈
      Pdf.buildVisualLines (fun _ _ _ t => t.length) "helvetica".data 24 (12 - 4 * 2)
        [⟨[MD.plainRun "ab cd".data], 0, false, 1, false⟩] ∧
    (Pdf.sumWidths (fun _ _ _ t => t.length)
        [⟨"ab".data, "helvetica".data, "normal".data, 24⟩,
         ⟨" ".data, "helvetica".data, "normal".data, 24⟩] ≤ (12 - 4 * 2) - 0 ∨
      (([⟨"ab".data, "helvetica".data, "normal".data, 24⟩,
         ⟨" ".data, "helvetica".data, "normal".data, 24⟩] : List Pdf.Seg).length = 1 ∧
        (12 - 4 * 2) - 0 < Pdf.sumWidths (fun _ _ _ t => t.length)
          [⟨"ab".data, "helvetica".data, "normal".data, 24⟩,
           ⟨" ".data, "helvetica".data, "normal".data, 24⟩])) := by
  constructor
  · with_unfolding_all decide
  · exact claim_C6 (fun _ _ _ t => t.length) "helvetica".data 24 12
      [⟨[MD.plainRun "ab cd".data], 0, false, 1, false⟩]
      ⟨[⟨"ab".data, "helvetica".data, "normal".data, 24⟩,
        ⟨" ".data, "helvetica".data, "normal".data, 24⟩], 0, false⟩
      (by with_unfolding_all decide)

/-! ## Claim C1 -/

/-- Claim C1: for every deck (and environment), a document produced by
`buildNativePdf` has exactly one page per slide whose hidden flag is not set,
pages in slide order — the page list is precisely the ordered `renderSlide`
output of the visible slides — and when the deck has zero non-hidden slides
the document still has exactly one (fresh, empty) page. -/
theorem claim_C1 (env : Pdf.Env) (deck : Pdf.Deck) (doc : Pdf.PdfDoc)
    (h : Pdf.buildNativePdf env deck = .ok doc) :
    doc.pageList.length = max 1 (Pdf.visibleSlides deck).length ∧
    (Pdf.visibleSlides deck = [] → doc.pageList = [[]]) ∧
    (Pdf.visibleSlides deck ≠ [] →
      (Pdf.visibleSlides deck).mapM (Pdf.renderSlide env deck) = .ok doc.pageList) := by
  rcases Pdf.buildNativePdf_ok_pages env deck doc h with ⟨hv, rfl⟩ | ⟨hv, hm⟩
  · exact ⟨by simp [hv, Pdf.PdfDoc.pageList], fun _ => rfl, fun hne => absurd hv hne⟩
  · have hlen := mapM_except_length hm
    have hpos : 0 < (Pdf.visibleSlides deck).length := List.length_pos.mpr hv
    exact ⟨by omega, fun hc => absurd hc hv, fun _ => hm⟩

/-- Witness for C1 at a three-slide deck with a hidden middle slide: the
document has two pages, each the background fill of its slide, in order. -/
theorem claim_C1_witness :
    Pdf.buildNativePdf Pdf.fetchFailsEnv Pdf.threeSlideDeck =
      .ok ⟨[Pdf.defaultBgPage], Pdf.defaultBgPage⟩ ∧
    ((⟨[Pdf.defaultBgPage], Pdf.defaultBgPage⟩ : Pdf.PdfDoc).pageList.length
        = max 1 (Pdf.visibleSlides Pdf.threeSlideDeck).length ∧
      (Pdf.visibleSlides Pdf.threeSlideDeck = [] →
        (⟨[Pdf.defaultBgPage], Pdf.defaultBgPage⟩ : Pdf.PdfDoc).pageList = [[]]) ∧
      (Pdf.visibleSlides Pdf.threeSlideDeck ≠ [] →
        (Pdf.visibleSlides Pdf.threeSlideDeck).mapM
            (Pdf.renderSlide Pdf.fetchFailsEnv Pdf.threeSlideDeck) =
          .ok (⟨[Pdf.defaultBgPage], Pdf.defaultBgPage⟩ : Pdf.PdfDoc).pageList)) :=
  ⟨rfl, claim_C1 Pdf.fetchFailsEnv Pdf.threeSlideDeck _ rfl⟩

/-! ## Claim C7 -/

/-- Counterexample to claim C7 as stated: at a deck with one slide holding a
TikZ element followed by a video element, under an environment whose fetch
rejects, the failure of the TikZ element aborts `renderSlide` and
`buildNativePdf` — no document is produced at all, and the video element is
never drawn. -/
theorem claim_C7_cex :
    Pdf.buildNativePdf Pdf.fetchFailsEnv Pdf.tikzThenVideoDeck = .error .fetchRejected ∧
    Pdf.renderSlide Pdf.fetchFailsEnv Pdf.tikzThenVideoDeck
        ⟨false, none, [.tikz (some "d.svg".data) ⟨0, 0⟩ ⟨10, 10⟩,
                       .video "v.mp4".data ⟨20, 0⟩ ⟨10, 10⟩]⟩ = .error .fetchRejected :=
  ⟨rfl, rfl⟩

/-- Claim C7 (amended): a fetch failure inside `drawImage` degrades to the
fallback reference rather than failing (`drawImage`'s only failure point is
the embed itself); but an error raised while drawing one element — a rejected
fetch in `drawTikZ` or a rejected embed in `drawImage` — is fatal:
`renderSlide` fails with that error, so the remaining elements of the slide
are not drawn, and `buildNativePdf` fails as soon as a visible slide's
rendering fails, so the remaining slides are not drawn. -/
theorem claim_C7 :
    (∀ (env : Pdf.Env) (deck : Pdf.Deck) (hidden : Bool) (bg : Option Pdf.Background)
        (pre : List Pdf.SlideElement) (el : Pdf.SlideElement)
        (post : List Pdf.SlideElement) (e : Pdf.DrawErr) (css : List (List Pdf.Cmd)),
        pre.mapM (Pdf.drawElement env deck) = .ok css →
        Pdf.drawElement env deck el = .error e →
        Pdf.renderSlide env deck ⟨hidden, bg, pre ++ el :: post⟩ = .error e) ∧
    (∀ (env : Pdf.Env) (deck : Pdf.Deck) (e : Pdf.DrawErr),
        (Pdf.visibleSlides deck).mapM (Pdf.renderSlide env deck) = .error e →
        Pdf.buildNativePdf env deck = .error e) ∧
    (∀ (env : Pdf.Env) (src : Str) (pos : Pdf.Pos) (sz : Pdf.Size) (e : Pdf.DrawErr),
        Pdf.drawImage env src pos sz = .error e ↔
          e = .embedRejected ∧
          env.addImageOk ((env.fetchB64 (env.resolveAsset src)).getD (env.resolveAsset src))
            = false) :=
  ⟨fun env deck hidden bg pre el post e css h1 h2 =>
      Pdf.renderSlide_error env deck hidden bg pre el post e css h1 h2,
   fun env deck e h => Pdf.buildNativePdf_error env deck e h,
   fun env src pos sz e => Pdf.drawImage_error_iff env src pos sz e⟩

/-- Witness for C7 at the concrete fetch-rejecting environment: the hypotheses
of the first conjunct hold at the TikZ-then-video slide and the conclusion
evaluates as stated. -/
theorem claim_C7_witness :
    (([] : List Pdf.SlideElement).mapM
        (Pdf.drawElement Pdf.fetchFailsEnv Pdf.tikzThenVideoDeck) = .ok []) ∧
    (Pdf.drawElement Pdf.fetchFailsEnv Pdf.tikzThenVideoDeck
        (.tikz (some "d.svg".data) ⟨0, 0⟩ ⟨10, 10⟩) = .error .fetchRejected) ∧
    Pdf.renderSlide Pdf.fetchFailsEnv Pdf.tikzThenVideoDeck
      ⟨false, none,
        [] ++ (Pdf.SlideElement.tikz (some "d.svg".data) ⟨0, 0⟩ ⟨10, 10⟩) ::
          [.video "v.mp4".data ⟨20, 0⟩ ⟨10, 10⟩]⟩ = .error .fetchRejected :=
  ⟨rfl, rfl,
    claim_C7.1 Pdf.fetchFailsEnv Pdf.tikzThenVideoDeck false none []
      (.tikz (some "d.svg".data) ⟨0, 0⟩ ⟨10, 10⟩)
      [.video "v.mp4".data ⟨20, 0⟩ ⟨10, 10⟩] .fetchRejected [] rfl rfl⟩

/-! ## Claim C9 -/

/-- Counterexample to claim C9 as stated: for the arrow with box
(50, 250, 300, 20) the emitted arrowhead's back corners are offset from the
tip by 5 = headSize/2 vertically, not by the head size 10: the triangle the
claim demands, with corners (340, 250) and (340, 270), is not drawn. -/
theorem claim_C9_cex :
    Pdf.drawShape none .arrow ⟨50, 250⟩ ⟨300, 20⟩ none =
      [.setLineWidth 1, .setDrawColor "#ffffff".data, .line 50 260 350 260,
       .setFillColor "#ffffff".data, .triangle 350 260 340 255 340 265 "F".data] ∧
    Pdf.Cmd.triangle 350 260 340 250 340 270 "F".data ∉
      Pdf.drawShape none .arrow ⟨50, 250⟩ ⟨300, 20⟩ none := by
  have h1 : Pdf.drawShape none .arrow ⟨50, 250⟩ ⟨300, 20⟩ none =
      [.setLineWidth 1, .setDrawColor "#ffffff".data, .line 50 260 350 260,
       .setFillColor "#ffffff".data, .triangle 350 260 340 255 340 265 "F".data] := by
    norm_num [Pdf.drawShape, Pdf.resolveShapeStyle, Pdf.fld]
  refine ⟨h1, ?_⟩
  rw [h1]
  intro hm
  simp at hm

/-- Claim C9 (amended): for every arrow shape element with box (x, y, w, h),
`drawShape` draws the straight line through the box's vertical center plus a
filled triangular arrowhead whose tip is at (x+w, y+h/2) and whose two back
corners are offset from the tip by the fixed head size 10 horizontally and by
half the head size vertically. -/
theorem claim_C9 (theme : Option Pdf.Theme) (pos : Pdf.Pos) (sz : Pdf.Size)
    (style : Option Pdf.ShapeStyle) :
    Pdf.drawShape theme .arrow pos sz style =
      [.setLineWidth ((Pdf.resolveShapeStyle (theme.bind Pdf.Theme.shape) style).strokeWidth.getD 1),
       .setDrawColor
         ((Pdf.resolveShapeStyle (theme.bind Pdf.Theme.shape) style).stroke.getD "#ffffff".data),
       .line pos.x (pos.y + sz.h / 2) (pos.x + sz.w) (pos.y + sz.h / 2),
       .setFillColor
         ((Pdf.resolveShapeStyle (theme.bind Pdf.Theme.shape) style).stroke.getD "#ffffff".data),
       .triangle (pos.x + sz.w) (pos.y + sz.h / 2)
         (pos.x + sz.w - 10) (pos.y + sz.h / 2 - 10 / 2)
         (pos.x + sz.w - 10) (pos.y + sz.h / 2 + 10 / 2) "F".data] := by
  simp [Pdf.drawShape]

/-! ## Round-trip infrastructure for the Shiki parser (claim C2)

The key structural invariant is `headTagged`: in well-formed highlighter
markup every `<` heads one of the known tags, which pins down where each
scanner can match. -/

namespace Shiki

theorem headTagged_nil (A : List Str) : headTagged A [] := by
  intro b hb hne _
  rw [List.mem_tails] at hb
  exact absurd (List.suffix_nil.mp hb) hne

theorem headTagged_cons (A : List Str) (c : Char) (t : Str) :
    headTagged A (c :: t) ↔
      ((c = '<' → ∃ a ∈ A, a <+: c :: t) ∧ headTagged A t) := by
  constructor
  · intro h
    refine ⟨fun hc => h (c :: t) ((List.mem_tails _ _).mpr (List.suffix_refl _))
      (List.cons_ne_nil c t) (by simp [hc]), ?_⟩
    intro b hb hne hd
    exact h b ((List.mem_tails _ _).mpr (((List.mem_tails _ _).mp hb).trans (List.suffix_cons c t)))
      hne hd
  · rintro ⟨h1, h2⟩ b hb hne hd
    rcases List.suffix_cons_iff.mp ((List.mem_tails b (c :: t)).mp hb) with rfl | hb2
    · simp only [List.head?_cons, Option.some.injEq] at hd
      exact h1 hd
    · exact h2 b ((List.mem_tails _ _).mpr hb2) hne hd

theorem headTagged_append (A : List Str) (x y : Str)
    (hx : headTagged A x) (hy : headTagged A y) : headTagged A (x ++ y) := by
  induction x with
  | nil => simpa using hy
  | cons c x ih =>
    rw [headTagged_cons] at hx
    rw [List.cons_append, headTagged_cons]
    refine ⟨fun hc => ?_, ih hx.2⟩
    obtain ⟨a, ha, hpre⟩ := hx.1 hc
    exact ⟨a, ha, hpre.trans (List.prefix_append (c :: x) y)⟩

theorem headTagged_of_no_lt (A : List Str) (t : Str) (h : '<' ∉ t) :
    headTagged A t := by
  induction t with
  | nil => exact headTagged_nil A
  | cons c t ih =>
    rw [headTagged_cons]
    refine ⟨fun hc => absurd (hc ▸ List.mem_cons_self c t) h, ?_⟩
    exact ih (fun hm => h (List.mem_cons_of_mem c hm))

theorem headTagged_mono (A B : List Str) (s : Str) (hAB : ∀ a ∈ A, a ∈ B)
    (h : headTagged A s) : headTagged B s := by
  intro b hb hne hd
  obtain ⟨a, ha, hpre⟩ := h b hb hne hd
  exact ⟨a, hAB a ha, hpre⟩

/-- On a `headTagged` string no pattern that starts with `<` but is
incompatible with every tag can match at any position, whatever follows. -/
theorem no_pat_match (A : List Str) (ps : Str)
    (hA : ∀ a ∈ A, ('<' :: ps).take a.length ≠ a.take ('<' :: ps).length)
    (s : Str) (hs : headTagged A s) :
    ∀ b ∈ s.tails, b ≠ [] → ∀ z : Str, ¬ ('<' :: ps).isPrefixOf (b ++ z) := by
  intro b hb hne z hpre
  rw [List.isPrefixOf_iff_prefix] at hpre
  have hb0 : b.head? = some '<' := by
    cases b with
    | nil => exact absurd rfl hne
    | cons c cb =>
      obtain ⟨r, hr⟩ := hpre
      rw [List.cons_append] at hr
      rw [List.head?_cons]
      exact congrArg some (List.head_eq_of_cons_eq hr).symm
  obtain ⟨a, ha, hab⟩ := hs b hb hne hb0
  have hax : a <+: b ++ z := hab.trans (List.prefix_append b z)
  rcases le_or_lt a.length ('<' :: ps).length with hle | hlt
  · have hap : a <+: ('<' :: ps) := List.prefix_of_prefix_length_le hax hpre hle
    have h1 : ('<' :: ps).take a.length = a := (List.prefix_iff_eq_take.mp hap).symm
    have h2 : a.take ('<' :: ps).length = a := List.take_of_length_le hle
    exact hA a ha (h1.trans h2.symm)
  · have hap : ('<' :: ps) <+: a := List.prefix_of_prefix_length_le hpre hax hlt.le
    have h1 : a.take ('<' :: ps).length = '<' :: ps := (List.prefix_iff_eq_take.mp hap).symm
    have h2 : ('<' :: ps).take a.length = '<' :: ps := List.take_of_length_le hlt.le
    exact hA a ha (h2.trans h1.symm)

theorem splitFirstSub_append (p : Char) (ps x y : Str)
    (hx : ∀ b ∈ x.tails, b ≠ [] → ¬ (p :: ps).isPrefixOf (b ++ ((p :: ps) ++ y))) :
    ∃ h, splitFirstSub p ps (x ++ ((p :: ps) ++ y)) = some (x, ⟨y, h⟩) := by
  induction x with
  | nil =>
    have hlen : y.length < (([] : Str) ++ ((p :: ps) ++ y)).length := by
      simp only [List.nil_append, List.length_append, List.length_cons]
      omega
    refine ⟨hlen, ?_⟩
    show splitFirstSub p ps (p :: (ps ++ y)) = some ([], ⟨y, hlen⟩)
    simp only [splitFirstSub]
    rw [if_pos]
    · simp [List.drop_left]
    · rw [List.isPrefixOf_iff_prefix]
      exact ⟨y, rfl⟩
  | cons c x ih =>
    have hx' : ∀ b ∈ x.tails, b ≠ [] → ¬ (p :: ps).isPrefixOf (b ++ ((p :: ps) ++ y)) :=
      fun b hb => hx b ((List.mem_tails _ _).mpr (((List.mem_tails _ _).mp hb).trans
        (List.suffix_cons c x)))
    obtain ⟨h', heq⟩ := ih hx'
    have hlen : y.length < ((c :: x) ++ ((p :: ps) ++ y)).length := by
      simp only [List.length_append, List.length_cons] at h' ⊢
      omega
    refine ⟨hlen, ?_⟩
    have hnp : ¬ (p :: ps).isPrefixOf (c :: (x ++ ((p :: ps) ++ y))) :=
      hx (c :: x) ((List.mem_tails _ _).mpr (List.suffix_refl _)) (List.cons_ne_nil c x)
    show splitFirstSub p ps (c :: (x ++ ((p :: ps) ++ y))) = some (c :: x, ⟨y, hlen⟩)
    simp only [splitFirstSub]
    rw [if_neg hnp, heq]

theorem splitFirstSub_none (p : Char) (ps : Str) (s : Str)
    (hs : ∀ b ∈ s.tails, b ≠ [] → ¬ (p :: ps).isPrefixOf b) :
    splitFirstSub p ps s = none := by
  induction s with
  | nil => rfl
  | cons c rest ih =>
    have hnp : ¬ (p :: ps).isPrefixOf (c :: rest) :=
      hs (c :: rest) ((List.mem_tails _ _).mpr (List.suffix_refl _)) (List.cons_ne_nil c rest)
    have ih' : splitFirstSub p ps rest = none :=
      ih (fun b hb => hs b ((List.mem_tails _ _).mpr (((List.mem_tails _ _).mp hb).trans
        (List.suffix_cons c rest))))
    simp only [splitFirstSub]
    rw [if_neg (by simpa using hnp), ih']

theorem splitOnSub_append (p : Char) (ps x y : Str)
    (hx : ∀ b ∈ x.tails, b ≠ [] → ¬ (p :: ps).isPrefixOf (b ++ ((p :: ps) ++ y))) :
    splitOnSub p ps (x ++ ((p :: ps) ++ y)) = x :: splitOnSub p ps y := by
  induction x with
  | nil =>
    show splitOnSub p ps (p :: (ps ++ y)) = [] :: splitOnSub p ps y
    rw [splitOnSub]
    rw [if_pos (by rw [List.isPrefixOf_iff_prefix]; exact ⟨y, rfl⟩)]
    rw [List.drop_left]
  | cons c x ih =>
    have hx' : ∀ b ∈ x.tails, b ≠ [] → ¬ (p :: ps).isPrefixOf (b ++ ((p :: ps) ++ y)) :=
      fun b hb => hx b ((List.mem_tails _ _).mpr (((List.mem_tails _ _).mp hb).trans
        (List.suffix_cons c x)))
    have hnp : ¬ (p :: ps).isPrefixOf (c :: (x ++ ((p :: ps) ++ y))) :=
      hx (c :: x) ((List.mem_tails _ _).mpr (List.suffix_refl _)) (List.cons_ne_nil c x)
    show splitOnSub p ps (c :: (x ++ ((p :: ps) ++ y))) = (c :: x) :: splitOnSub p ps y
    rw [splitOnSub]
    rw [if_neg hnp, ih hx']

theorem splitOnSub_no_occ (p : Char) (ps : Str) (s : Str)
    (hs : ∀ b ∈ s.tails, b ≠ [] → ¬ (p :: ps).isPrefixOf b) :
    splitOnSub p ps s = [s] := by
  induction s with
  | nil => rw [splitOnSub]
  | cons c rest ih =>
    have hnp : ¬ (p :: ps).isPrefixOf (c :: rest) :=
      hs (c :: rest) ((List.mem_tails _ _).mpr (List.suffix_refl _)) (List.cons_ne_nil c rest)
    have ih' : splitOnSub p ps rest = [rest] :=
      ih (fun b hb => hs b ((List.mem_tails _ _).mpr (((List.mem_tails _ _).mp hb).trans
        (List.suffix_cons c rest))))
    rw [splitOnSub]
    rw [if_neg (by simpa using hnp), ih']

theorem itemWF_colored (c t : Str) (h : itemWF (.colored c t) = true) :
    (∃ ds, c = '#' :: ds ∧ 3 ≤ ds.length ∧ ds.length ≤ 8 ∧ ∀ d ∈ ds, isHexDigit d) ∧
    '<' ∉ t ∧ '\n' ∉ t := by
  simp only [itemWF, Bool.and_eq_true, decide_eq_true_eq, List.all_eq_true] at h
  obtain ⟨⟨hm, ha⟩, hb⟩ := h
  refine ⟨?_, fun hmem => (ha '<' hmem) rfl, fun hmem => (hb '\n' hmem) rfl⟩
  split at hm
  next ds =>
    simp only [Bool.and_eq_true, decide_eq_true_eq, List.all_eq_true] at hm
    exact ⟨ds, rfl, hm.1.1, hm.1.2, fun d hd => hm.2 d hd⟩
  next => exact absurd hm (by simp)

theorem itemWF_plain (t : Str) (h : itemWF (.plain t) = true) :
    '<' ∉ t ∧ '\n' ∉ t := by
  simp only [itemWF, Bool.and_eq_true, decide_eq_true_eq, List.all_eq_true] at h
  exact ⟨fun hmem => (h.1 '<' hmem) rfl, fun hmem => (h.2 '\n' hmem) rfl⟩

theorem colorPre_tagged : headTagged tagsB colorPre := by
  unfold headTagged
  decide

theorem spanClose_tagged : headTagged tagsB spanClose := by
  unfold headTagged
  decide

theorem itemHtml_tagged (it : ShikiItem) (h : itemWF it = true) :
    headTagged tagsB (itemHtml it) := by
  cases it with
  | colored c t =>
    obtain ⟨⟨ds, rfl, _, _, hhex⟩, hlt, _⟩ := itemWF_colored c t h
    have hc : '<' ∉ '#' :: ds := by
      intro hm
      rcases List.mem_cons.mp hm with h0 | h0
      · exact absurd h0.symm (by decide)
      · have := hhex '<' h0
        exact absurd this (by decide)
    have hr : headTagged tagsB
        (colorPre ++ (('#' :: ds) ++ ("\">".data ++ (t ++ spanClose)))) := by
      refine headTagged_append _ _ _ colorPre_tagged ?_
      refine headTagged_append _ _ _ (headTagged_of_no_lt _ _ hc) ?_
      refine headTagged_append _ _ _ (headTagged_of_no_lt _ _ (by decide)) ?_
      exact headTagged_append _ _ _ (headTagged_of_no_lt _ _ hlt) spanClose_tagged
    have heq : itemHtml (ShikiItem.colored ('#' :: ds) t) =
        colorPre ++ (('#' :: ds) ++ ("\">".data ++ (t ++ spanClose))) := by
      simp [itemHtml, List.append_assoc]
    rw [heq]
    exact hr
  | plain t =>
    exact headTagged_of_no_lt _ _ (itemWF_plain t h).1

theorem lineBody_tagged (items : List ShikiItem) (h : ∀ it ∈ items, itemWF it = true) :
    headTagged tagsB (lineBody items) := by
  induction items with
  | nil => exact headTagged_nil tagsB
  | cons it rest ih =>
    show headTagged tagsB (itemHtml it ++ lineBody rest)
    exact headTagged_append _ _ _ (itemHtml_tagged it (h it (List.mem_cons_self it rest)))
      (ih (fun x hx => h x (List.mem_cons_of_mem it hx)))

theorem stripTags_no_lt (t : Str) (h : '<' ∉ t) : stripTags t = t := by
  induction t with
  | nil => rw [stripTags]
  | cons c rest ih =>
    have hni : ¬ (c = '<') := fun hc => h (by rw [← hc]; exact List.mem_cons_self c rest)
    rw [stripTags]
    rw [if_neg hni, ih (fun hm => h (List.mem_cons_of_mem c hm))]

theorem trim_ne_nil (s : Str) (c : Char) (hc : c ∈ s) (hw : isWs c = false) :
    trim s ≠ [] := by
  rw [trim]
  intro h
  have h1 : s.dropWhile isWs ≠ [] := by
    intro h1
    have := (List.dropWhile_eq_nil_iff.mp h1) c hc
    rw [hw] at this
    exact Bool.false_ne_true this
  have h2 := List.head_dropWhile_not (p := isWs) (l := s) h1
  have h3 : (s.dropWhile isWs).head h1 ∈ (s.dropWhile isWs).reverse := by
    rw [List.mem_reverse]
    exact List.head_mem h1
  have h0 : (s.dropWhile isWs).reverse.dropWhile isWs = [] := by
    rwa [List.reverse_eq_nil_iff] at h
  have h4 := List.dropWhile_eq_nil_iff.mp h0 _ h3
  rw [h2] at h4
  exact Bool.false_ne_true h4

theorem stripCloseAux_append (x sep : Str) (hx : headTagged tagsB x)
    (hsep : ∀ w ∈ sep, isWs w = true) :
    stripCloseAux (x ++ spanClose ++ sep) = some x := by
  induction x with
  | nil =>
    show stripCloseAux ('<' :: ("/span>".data ++ sep)) = some []
    have hcond : spanClose.isPrefixOf ('<' :: ("/span>".data ++ sep)) = true ∧
        ((("/span>".data ++ sep).drop (spanClose.length - 1)).all isWs = true) := by
      constructor
      · rw [List.isPrefixOf_iff_prefix]
        exact ⟨sep, rfl⟩
      · rw [show spanClose.length - 1 = "/span>".data.length by decide, List.drop_left,
          List.all_eq_true]
        exact hsep
    rw [stripCloseAux, if_pos hcond]
  | cons c x ih =>
    rw [headTagged_cons] at hx
    show stripCloseAux (c :: (x ++ spanClose ++ sep)) = some (c :: x)
    rw [stripCloseAux]
    rw [if_neg, ih hx.2]
    rintro ⟨hc1, hc2⟩
    have hceq : c = '<' := by
      rw [List.isPrefixOf_iff_prefix] at hc1
      obtain ⟨r, hr⟩ := hc1
      exact List.head_eq_of_cons_eq hr.symm
    obtain ⟨a, ha, hapre⟩ := hx.1 hceq
    have hclo : spanClose <+: c :: (x ++ spanClose ++ sep) := by
      rw [← List.isPrefixOf_iff_prefix]
      exact hc1
    rcases List.mem_cons.mp ha with rfl | ha2
    · have hpre2 : colorPre <+: c :: (x ++ spanClose ++ sep) := by
        have : (c :: x) ++ (spanClose ++ sep) = c :: (x ++ spanClose ++ sep) := by simp
        exact this ▸ hapre.trans (List.prefix_append (c :: x) (spanClose ++ sep))
      have : spanClose <+: colorPre :=
        List.prefix_of_prefix_length_le hclo hpre2 (by decide)
      exact absurd this (by decide)
    rcases List.mem_cons.mp ha2 with rfl | ha3
    · obtain ⟨x2, hx2⟩ := hapre
      have hxeq : x = "/span>".data ++ x2 := by
        have : c :: x = '<' :: ("/span>".data ++ x2) := hx2.symm
        exact (List.cons_eq_cons.mp this).2
      rw [show spanClose.length - 1 = "/span>".data.length by decide] at hc2
      rw [hxeq] at hc2
      rw [show ("/span>".data ++ x2) ++ spanClose ++ sep =
        "/span>".data ++ (x2 ++ spanClose ++ sep) by simp] at hc2
      rw [List.drop_left, List.all_eq_true] at hc2
      have hmem : '<' ∈ x2 ++ spanClose ++ sep := by
        rw [List.append_assoc, List.mem_append]
        right
        rw [List.mem_append]
        left
        decide
      have := hc2 '<' hmem
      exact absurd this (by decide)
    · exact absurd ha3 (List.not_mem_nil a)

theorem takeWhile_hex_append (ds : Str) (h : ∀ d ∈ ds, isHexDigit d = true) (R : Str) :
    (ds ++ '\x22' :: R).takeWhile isHexDigit = ds := by
  induction ds with
  | nil =>
    rw [List.nil_append, List.takeWhile_cons]
    rw [if_neg (by decide)]
  | cons d ds ih =>
    rw [List.cons_append, List.takeWhile_cons]
    rw [if_pos (h d (List.mem_cons_self d ds)),
      ih (fun e he => h e (List.mem_cons_of_mem d he))]

theorem tryToken_none_of_head (s : Str) (h : s.head? ≠ some '<') :
    tryToken s = none := by
  unfold tryToken
  rw [if_neg]
  intro hp
  rw [List.isPrefixOf_iff_prefix] at hp
  obtain ⟨r, hr⟩ := hp
  exact h (by rw [← hr]; rfl)

theorem no_head_match (ps t y : Str) (h : '<' ∉ t) :
    ∀ b ∈ t.tails, b ≠ [] → ¬ ('<' :: ps).isPrefixOf (b ++ (('<' :: ps) ++ y)) := by
  intro b hb hbne hpre
  rw [List.isPrefixOf_iff_prefix] at hpre
  obtain ⟨r, hr⟩ := hpre
  cases b with
  | nil => exact hbne rfl
  | cons c b2 =>
    have hc : c = '<' := by
      rw [List.cons_append] at hr
      exact List.head_eq_of_cons_eq hr.symm
    exact h (((List.mem_tails _ _).mp hb).subset (hc ▸ List.mem_cons_self c b2))

theorem findToken_no_lt (s : Str) (h : '<' ∉ s) : findToken s = none := by
  induction s with
  | nil => rfl
  | cons c rest ih =>
    have h1 : tryToken (c :: rest) = none := by
      refine tryToken_none_of_head _ (fun hh => h ?_)
      rw [List.head?_cons, Option.some.injEq] at hh
      rw [hh]
      exact List.mem_cons_self _ _
    have h2 : findToken rest = none := ih (fun hm => h (List.mem_cons_of_mem c hm))
    simp only [findToken]
    rw [h1, h2]

theorem findToken_cons_some (c : Char) (r col x : Str)
    (rem : {rem : Str // rem.length < (c :: r).length})
    (h : tryToken (c :: r) = some (col, x, rem)) :
    findToken (c :: r) = some ([], col, x, rem) := by
  simp only [findToken]
  rw [h]

theorem findToken_extend (t : Str) (ht : '<' ∉ t) (s : Str) :
    (findToken s = none → findToken (t ++ s) = none) ∧
    (∀ (g c x r : Str) (hr : r.length < s.length),
      findToken s = some (g, c, x, ⟨r, hr⟩) →
      ∃ hr2, findToken (t ++ s) = some (t ++ g, c, x, ⟨r, hr2⟩)) := by
  induction t with
  | nil =>
    refine ⟨fun h => h, fun g c x r hr h => ⟨?_, ?_⟩⟩
    · show r.length < (([] : Str) ++ s).length
      rw [List.nil_append]
      exact hr
    · show findToken s = some (g, c, x, ⟨r, _⟩)
      exact h
  | cons c0 t ih =>
    have hc0 : ¬ (c0 = '<') := fun hh => ht (hh ▸ List.mem_cons_self c0 t)
    have ht' : '<' ∉ t := fun hm => ht (List.mem_cons_of_mem c0 hm)
    have htt : tryToken (c0 :: (t ++ s)) = none :=
      tryToken_none_of_head _ (by
        rw [List.head?_cons]
        intro hh
        exact hc0 (Option.some.injEq _ _ ▸ hh))
    constructor
    · intro h
      have h2 := (ih ht' ).1 h
      show findToken (c0 :: (t ++ s)) = none
      simp only [findToken]
      rw [htt, h2]
    · intro g c x r hr h
      obtain ⟨hr2, heq⟩ := (ih ht').2 g c x r hr h
      have hr3 : r.length < (c0 :: (t ++ s)).length := by
        rw [List.length_cons]
        omega
      refine ⟨hr3, ?_⟩
      show findToken (c0 :: (t ++ s)) = some (c0 :: (t ++ g), c, x, ⟨r, hr3⟩)
      simp only [findToken]
      rw [htt, heq]

theorem drop_two_append (ds : Str) (a b : Char) (X : Str) :
    (ds ++ a :: b :: X).drop (ds.length + 2) = X := by
  induction ds with
  | nil => rfl
  | cons c ds ih =>
    rw [List.cons_append, List.length_cons,
      show ds.length + 1 + 2 = ds.length + 2 + 1 by omega, List.drop_succ_cons, ih]

theorem tryToken_at_span (ds t s : Str)
    (h3 : 3 ≤ ds.length) (h8 : ds.length ≤ 8)
    (hhex : ∀ d ∈ ds, isHexDigit d = true)
    (hlt : '<' ∉ t) (hnl : '\n' ∉ t) :
    ∃ hr, tryToken (colorPre ++ (('#' :: ds) ++ ("\x22>".data ++ (t ++ (spanClose ++ s)))))
      = some ('#' :: ds, t, ⟨s, hr⟩) := by
  have hr0 : s.length <
      (colorPre ++ (('#' :: ds) ++ ("\x22>".data ++ (t ++ (spanClose ++ s))))).length := by
    simp only [List.length_append, List.length_cons]
    omega
  refine ⟨hr0, ?_⟩
  have hscrut : (((colorPre ++ (('#' :: ds) ++ ("\x22>".data ++ (t ++ (spanClose ++ s))))).drop
      colorPre.length).dropWhile isWs) =
      '#' :: (ds ++ ("\x22>".data ++ (t ++ (spanClose ++ s)))) := by
    rw [List.drop_left]
    show List.dropWhile isWs ('#' :: (ds ++ ("\x22>".data ++ (t ++ (spanClose ++ s))))) = _
    rw [List.dropWhile_cons, if_neg (by decide)]
  obtain ⟨hb, hsplit⟩ := splitFirstSub_append '<' "/span>".data t s
    (no_head_match "/span>".data t s hlt)
  have hsplit2 : splitFirstSub '<' "/span>".data (t ++ (spanClose ++ s)) =
      some (t, ⟨s, hb⟩) := hsplit
  unfold tryToken
  rw [if_pos (by rw [List.isPrefixOf_iff_prefix]; exact List.prefix_append _ _)]
  split
  next hrest heq =>
    have hh : hrest = ds ++ ("\x22>".data ++ (t ++ (spanClose ++ s))) :=
      (List.cons_eq_cons.mp (heq.symm.trans hscrut)).2
    subst hh
    have hdig2 : List.takeWhile isHexDigit
        (ds ++ (['\x22', '>'] ++ (t ++ (spanClose ++ s)))) = ds :=
      takeWhile_hex_append ds hhex ('>' :: (t ++ (spanClose ++ s)))
    have hc3 : (['\x22', '>'] : Str).isPrefixOf
        (List.drop ds.length (ds ++ (['\x22', '>'] ++ (t ++ (spanClose ++ s))))) = true := by
      rw [List.drop_left, List.isPrefixOf_iff_prefix]
      exact ⟨t ++ (spanClose ++ s), rfl⟩
    have hdrop2 : List.drop (ds.length + 2)
        (ds ++ (['\x22', '>'] ++ (t ++ (spanClose ++ s)))) = t ++ (spanClose ++ s) :=
      drop_two_append ds '\x22' '>' (t ++ (spanClose ++ s))
    have hsplit3 : splitFirstSub '<' ['/', 's', 'p', 'a', 'n', '>']
        (t ++ (spanClose ++ s)) = some (t, ⟨s, hb⟩) := hsplit
    simp only [hdig2]
    rw [if_pos ⟨h3, h8, hc3⟩]
    have harg : List.drop
        ((List.takeWhile isHexDigit (ds ++ (['\x22', '>'] ++ (t ++ (spanClose ++ s))))).length
          + 2) (ds ++ (['\x22', '>'] ++ (t ++ (spanClose ++ s)))) = t ++ (spanClose ++ s) := by
      rw [hdig2]
      exact hdrop2
    have hv2 : splitFirstVal '<' ['/', 's', 'p', 'a', 'n', '>'] (t ++ (spanClose ++ s)) =
        some (t, s) := by
      simp only [splitFirstVal]
      rw [hsplit3]
      rfl
    have hall : (List.all t fun x => decide (x ≠ '\n')) = true := by
      rw [List.all_eq_true]
      intro c hc
      rw [decide_eq_true_eq]
      intro hcc
      exact hnl (hcc ▸ hc)
    split
    next content rem hrem heq2 =>
      have hv1 : splitFirstVal '<' ['/', 's', 'p', 'a', 'n', '>'] (List.drop
          ((List.takeWhile isHexDigit
            (ds ++ (['\x22', '>'] ++ (t ++ (spanClose ++ s))))).length + 2)
          (ds ++ (['\x22', '>'] ++ (t ++ (spanClose ++ s))))) = some (content, rem) := by
        simp only [splitFirstVal]
        rw [heq2]
        rfl
      rw [harg, hv2, Option.some.injEq, Prod.mk.injEq] at hv1
      obtain ⟨rfl, rfl⟩ := hv1
      rw [if_pos hall]
    next heq2 =>
      have hv1 : splitFirstVal '<' ['/', 's', 'p', 'a', 'n', '>'] (List.drop
          ((List.takeWhile isHexDigit
            (ds ++ (['\x22', '>'] ++ (t ++ (spanClose ++ s))))).length + 2)
          (ds ++ (['\x22', '>'] ++ (t ++ (spanClose ++ s))))) = none := by
        simp only [splitFirstVal]
        rw [heq2]
        rfl
      rw [harg, hv2] at hv1
      exact Option.noConfusion hv1
  next hne =>
    exact (hne _ hscrut).elim

theorem tokenTexts_append (a b : List CodeToken) :
    tokenTexts (a ++ b) = tokenTexts a ++ tokenTexts b := by
  simp [tokenTexts]

theorem tokenTexts_cons (tok : CodeToken) (b : List CodeToken) :
    tokenTexts (tok :: b) = tok.text ++ tokenTexts b := by
  simp [tokenTexts]

theorem findToken_at_span (ds t s : Str)
    (h3 : 3 ≤ ds.length) (h8 : ds.length ≤ 8)
    (hhex : ∀ d ∈ ds, isHexDigit d = true)
    (hlt : '<' ∉ t) (hnl : '\n' ∉ t) :
    ∃ hr, findToken (colorPre ++ (('#' :: ds) ++ ("\x22>".data ++ (t ++ (spanClose ++ s)))))
      = some ([], '#' :: ds, t, ⟨s, hr⟩) := by
  obtain ⟨hr, heq⟩ := tryToken_at_span ds t s h3 h8 hhex hlt hnl
  refine ⟨hr, ?_⟩
  show findToken ('<' :: ("span style=\x22color:".data ++
      (('#' :: ds) ++ ("\x22>".data ++ (t ++ (spanClose ++ s)))))) = _
  exact findToken_cons_some '<' _ _ _ _ heq

theorem tokens_of_body (items : List ShikiItem) :
    ∀ pending : Str, '<' ∉ pending → (∀ it ∈ items, itemWF it = true) →
    tokenTexts (scanColorTokens (pending ++ lineBody items)) =
      ((linePiecesAux pending items).map unescapeHtml).flatten := by
  induction items with
  | nil =>
    intro pending hp _
    rw [show lineBody [] = [] from rfl, List.append_nil]
    rw [scanColorTokens, findToken_no_lt pending hp]
    rw [stripTags_no_lt pending hp]
    by_cases hpe : pending = []
    · subst hpe
      rw [if_pos rfl]
      rfl
    · rw [if_neg hpe]
      rw [show linePiecesAux pending [] = if pending = [] then [] else [pending] from rfl,
        if_neg hpe]
      simp [tokenTexts]
  | cons it rest ih =>
    intro pending hp hwf
    have hwfr : ∀ x ∈ rest, itemWF x = true := fun x hx => hwf x (List.mem_cons_of_mem it hx)
    cases it with
    | plain t =>
      obtain ⟨hlt', _⟩ := itemWF_plain t (hwf _ (List.mem_cons_self _ _))
      have hp2 : '<' ∉ pending ++ t := by
        rw [List.mem_append]
        rintro (h | h)
        · exact hp h
        · exact hlt' h
      have hsh : pending ++ lineBody (ShikiItem.plain t :: rest) =
          (pending ++ t) ++ lineBody rest := by
        show pending ++ (t ++ lineBody rest) = (pending ++ t) ++ lineBody rest
        rw [List.append_assoc]
      rw [hsh, ih (pending ++ t) hp2 hwfr]
      rfl
    | colored col txt =>
      obtain ⟨⟨ds, rfl, h3, h8, hhex⟩, hlt', hnl'⟩ :=
        itemWF_colored col txt (hwf _ (List.mem_cons_self _ _))
      obtain ⟨hr, hfind0⟩ := findToken_at_span ds txt (lineBody rest) h3 h8 hhex hlt' hnl'
      obtain ⟨hr2, hfind⟩ := (findToken_extend pending hp _).2 [] ('#' :: ds) txt
        (lineBody rest) hr hfind0
      have hsh : pending ++ lineBody (ShikiItem.colored ('#' :: ds) txt :: rest) =
          pending ++ (colorPre ++ (('#' :: ds) ++
            ("\x22>".data ++ (txt ++ (spanClose ++ lineBody rest))))) := by
        show pending ++ (itemHtml (ShikiItem.colored ('#' :: ds) txt) ++ lineBody rest) = _
        rw [show itemHtml (ShikiItem.colored ('#' :: ds) txt) =
          colorPre ++ ('#' :: ds) ++ "\x22>".data ++ txt ++ spanClose from rfl]
        simp [List.append_assoc]
      rw [hsh, scanColorTokens, hfind]
      rw [tokenTexts_append, tokenTexts_cons]
      have ih0 : tokenTexts (scanColorTokens (lineBody rest)) =
          ((linePiecesAux [] rest).map unescapeHtml).flatten :=
        ih [] (List.not_mem_nil '<') hwfr
      rw [ih0]
      rw [show pending ++ ([] : Str) = pending from List.append_nil pending,
        stripTags_no_lt pending hp]
      rw [show linePiecesAux pending (ShikiItem.colored ('#' :: ds) txt :: rest) =
        (if pending = [] then [] else [pending]) ++ txt :: linePiecesAux [] rest from rfl]
      by_cases hpe : pending = []
      · subst hpe
        rw [if_pos rfl, if_pos rfl]
        simp [tokenTexts]
      · rw [if_neg hpe, if_neg hpe]
        simp [tokenTexts]

theorem no_pat_match_nil (A : List Str) (ps : Str)
    (hA : ∀ a ∈ A, ('<' :: ps).take a.length ≠ a.take ('<' :: ps).length)
    (s : Str) (hs : headTagged A s) :
    ∀ b ∈ s.tails, b ≠ [] → ¬ ('<' :: ps).isPrefixOf b := by
  intro b hb hbne hpre
  exact no_pat_match A ps hA s hs b hb hbne []
    (by rwa [List.append_nil])

theorem marker_vs_tagsB : ∀ a ∈ tagsB,
    ('<' :: "span class=\x22line\x22>".data).take a.length ≠
      a.take ('<' :: "span class=\x22line\x22>".data).length := by
  decide

theorem close_vs_tagsC : ∀ a ∈ tagsC,
    ('<' :: "/code>".data).take a.length ≠ a.take ('<' :: "/code>".data).length := by
  decide

theorem shikiContent_nil : shikiContent [] = [] := rfl

theorem shikiContent_single (l : List ShikiItem) : shikiContent [l] = lineHtml l ++ [] := rfl

theorem shikiContent_cons2 (l l2 : List ShikiItem) (ls : List (List ShikiItem)) :
    shikiContent (l :: l2 :: ls) = lineHtml l ++ '\n' :: shikiContent (l2 :: ls) := rfl

theorem lineHtml_tagged (l : List ShikiItem) (hwf : ∀ it ∈ l, itemWF it = true) :
    headTagged tagsC (lineHtml l) := by
  have hm : headTagged tagsC lineMarker := by
    unfold headTagged
    decide
  have hb : headTagged tagsC (lineBody l) :=
    headTagged_mono tagsB tagsC _ (by decide) (lineBody_tagged l hwf)
  have hc : headTagged tagsC spanClose := by
    unfold headTagged
    decide
  exact headTagged_append _ _ _ (headTagged_append _ _ _ hm hb) hc

theorem shikiContent_tagged (lines : List (List ShikiItem))
    (hwf : ∀ l ∈ lines, ∀ it ∈ l, itemWF it = true) :
    headTagged tagsC (shikiContent lines) := by
  induction lines with
  | nil => exact headTagged_nil tagsC
  | cons l ls ih =>
    cases ls with
    | nil =>
      rw [shikiContent_single, List.append_nil]
      exact lineHtml_tagged l (hwf l (List.mem_cons_self l []))
    | cons l2 ls2 =>
      rw [shikiContent_cons2]
      refine headTagged_append _ _ _
        (lineHtml_tagged l (hwf l (List.mem_cons_self _ _))) ?_
      rw [headTagged_cons]
      exact ⟨fun hcc => absurd hcc (by decide),
        ih (fun x hx => hwf x (List.mem_cons_of_mem l hx))⟩

theorem shikiContent_head (l2 : List ShikiItem) (ls : List (List ShikiItem)) :
    ∃ R2, shikiContent (l2 :: ls) =
      ('<' :: "span class=\x22line\x22>".data) ++ R2 := by
  cases ls with
  | nil => exact ⟨(lineBody l2 ++ spanClose) ++ [], rfl⟩
  | cons l3 ls2 =>
    exact ⟨(lineBody l2 ++ spanClose) ++ ('\n' :: shikiContent (l3 :: ls2)), rfl⟩

theorem findCode_build (lines : List (List ShikiItem))
    (hwf : ∀ l ∈ lines, ∀ it ∈ l, itemWF it = true) :
    findCode (buildShikiHtml lines) = some (shikiContent lines) := by
  obtain ⟨hb, hsp⟩ := splitFirstSub_append '<' "/code>".data (shikiContent lines) []
    (fun b hbm hbne => no_pat_match tagsC "/code>".data close_vs_tagsC
      (shikiContent lines) (shikiContent_tagged lines hwf) b hbm hbne _)
  have hs2 : splitFirstSub '<' "/code>".data (shikiContent lines ++ "</code>".data) =
      some (shikiContent lines, ⟨[], hb⟩) := hsp
  have htry : tryCodeAt ('<' :: ("code>".data ++ (shikiContent lines ++ "</code>".data))) =
      some (shikiContent lines) := by
    unfold tryCodeAt
    rw [if_pos (by
      rw [List.isPrefixOf_iff_prefix]
      exact ⟨'>' :: (shikiContent lines ++ "</code>".data), rfl⟩)]
    have h1v : splitFirstVal '>' []
        (List.drop 5 ('<' :: ("code>".data ++ (shikiContent lines ++ "</code>".data)))) =
        some ([], shikiContent lines ++ "</code>".data) := by
      rw [show List.drop 5 ('<' :: ("code>".data ++ (shikiContent lines ++ "</code>".data))) =
        '>' :: (shikiContent lines ++ "</code>".data) from rfl]
      simp only [splitFirstVal, splitFirstSub]
      rw [if_pos (by rw [List.isPrefixOf_iff_prefix]; exact ⟨_, rfl⟩)]
      rfl
    split
    next a afterGt hprop heq2 =>
      have hv1 : splitFirstVal '>' []
          (List.drop 5 ('<' :: ("code>".data ++ (shikiContent lines ++ "</code>".data)))) =
          some (a, afterGt) := by
        simp only [splitFirstVal]
        rw [heq2]
        rfl
      rw [h1v, Option.some.injEq, Prod.mk.injEq] at hv1
      obtain ⟨rfl, rfl⟩ := hv1
      rw [hs2]
    next heq2 =>
      have hv1 : splitFirstVal '>' []
          (List.drop 5 ('<' :: ("code>".data ++ (shikiContent lines ++ "</code>".data)))) =
          none := by
        simp only [splitFirstVal]
        rw [heq2]
        rfl
      rw [h1v] at hv1
      exact Option.noConfusion hv1
  show findCode ('<' :: ("code>".data ++ (shikiContent lines ++ "</code>".data))) = _
  simp only [findCode]
  rw [htry]

theorem splitOnSub_content (lines : List (List ShikiItem))
    (hwf : ∀ l ∈ lines, ∀ it ∈ l, itemWF it = true) :
    splitOnSub '<' "span class=\x22line\x22>".data (shikiContent lines) =
      [] :: partsOf lines := by
  induction lines with
  | nil =>
    rw [shikiContent_nil, splitOnSub]
    rfl
  | cons l ls ih =>
    have hxtag : headTagged tagsB (lineBody l ++ (spanClose ++ ['\n'])) :=
      headTagged_append _ _ _ (lineBody_tagged l (hwf l (List.mem_cons_self _ _)))
        (headTagged_append _ _ _ spanClose_tagged (headTagged_of_no_lt _ _ (by decide)))
    cases ls with
    | nil =>
      have hone : shikiContent [l] = ([] : Str) ++
          (('<' :: "span class=\x22line\x22>".data) ++ ((lineBody l ++ spanClose) ++ [])) := rfl
      rw [hone, splitOnSub_append '<' "span class=\x22line\x22>".data []
        ((lineBody l ++ spanClose) ++ [])
        (fun b hbm hbne => absurd (List.suffix_nil.mp ((List.mem_tails _ _).mp hbm)) hbne)]
      rw [List.append_nil]
      rw [splitOnSub_no_occ '<' "span class=\x22line\x22>".data (lineBody l ++ spanClose)
        (no_pat_match_nil tagsB _ marker_vs_tagsB _
          (headTagged_append _ _ _ (lineBody_tagged l (hwf l (List.mem_cons_self _ _)))
            spanClose_tagged))]
      rfl
    | cons l2 ls2 =>
      have hwf2 : ∀ x ∈ l2 :: ls2, ∀ it ∈ x, itemWF it = true :=
        fun x hx => hwf x (List.mem_cons_of_mem l hx)
      obtain ⟨R2, hR2⟩ := shikiContent_head l2 ls2
      have hceq : shikiContent (l :: l2 :: ls2) = ([] : Str) ++
          (('<' :: "span class=\x22line\x22>".data) ++
            ((lineBody l ++ (spanClose ++ ['\n'])) ++
              (('<' :: "span class=\x22line\x22>".data) ++ R2))) := by
        rw [shikiContent_cons2, hR2]
        simp [lineHtml, lineMarker]
      have hsplit2 : splitOnSub '<' "span class=\x22line\x22>".data
          (shikiContent (l2 :: ls2)) =
          [] :: splitOnSub '<' "span class=\x22line\x22>".data R2 := by
        rw [hR2]
        exact splitOnSub_append '<' _ [] R2
          (fun b hbm hbne => absurd (List.suffix_nil.mp ((List.mem_tails _ _).mp hbm)) hbne)
      have htail : splitOnSub '<' "span class=\x22line\x22>".data R2 = partsOf (l2 :: ls2) :=
        ((List.cons.injEq _ _ _ _ ▸ (hsplit2.symm.trans (ih hwf2)) : _ ∧ _)).2
      rw [hceq, splitOnSub_append '<' "span class=\x22line\x22>".data []
        ((lineBody l ++ (spanClose ++ ['\n'])) ++
          (('<' :: "span class=\x22line\x22>".data) ++ R2))
        (fun b hbm hbne => absurd (List.suffix_nil.mp ((List.mem_tails _ _).mp hbm)) hbne)]
      rw [splitOnSub_append '<' "span class=\x22line\x22>".data
        (lineBody l ++ (spanClose ++ ['\n'])) R2
        (fun b hbm hbne => no_pat_match tagsB _ marker_vs_tagsB _ hxtag b hbm hbne _)]
      rw [htail]
      simp [partsOf, List.append_assoc]

theorem stripClose_part (l : List ShikiItem) (sep : Str)
    (hwf : ∀ it ∈ l, itemWF it = true) (hsep : ∀ w ∈ sep, isWs w = true) :
    stripClose (lineBody l ++ spanClose ++ sep) = lineBody l := by
  rw [stripClose, stripCloseAux_append (lineBody l) sep (lineBody_tagged l hwf) hsep]
  rfl

theorem parts_map (lines : List (List ShikiItem))
    (hwf : ∀ l ∈ lines, ∀ it ∈ l, itemWF it = true) :
    ((partsOf lines).filter (fun part => !(trim part).isEmpty)).map
      (fun part => scanColorTokens (stripClose part)) =
    lines.map (fun l => scanColorTokens (lineBody l)) := by
  induction lines with
  | nil => rfl
  | cons l ls ih =>
    have hwfl : ∀ it ∈ l, itemWF it = true := hwf l (List.mem_cons_self _ _)
    cases ls with
    | nil =>
      have hmem : '<' ∈ lineBody l ++ spanClose :=
        List.mem_append.mpr (Or.inr (by decide))
      have hne := trim_ne_nil _ '<' hmem (by decide)
      have hf : (trim (lineBody l ++ spanClose)).isEmpty = false := by
        cases hh : trim (lineBody l ++ spanClose) with
        | nil => exact absurd hh hne
        | cons c cs => rfl
      show ([lineBody l ++ spanClose].filter (fun part => !(trim part).isEmpty)).map
        (fun part => scanColorTokens (stripClose part)) = _
      rw [List.filter_cons_of_pos (by rw [hf]; rfl)]
      have hsc := stripClose_part l [] hwfl (fun w hw => absurd hw (List.not_mem_nil w))
      rw [List.append_nil] at hsc
      show [scanColorTokens (stripClose (lineBody l ++ spanClose))] = _
      rw [hsc]
      rfl
    | cons l2 ls2 =>
      have hmem : '<' ∈ lineBody l ++ spanClose ++ ['\n'] :=
        List.mem_append.mpr (Or.inl (List.mem_append.mpr (Or.inr (by decide))))
      have hne := trim_ne_nil _ '<' hmem (by decide)
      have hf : (trim (lineBody l ++ spanClose ++ ['\n'])).isEmpty = false := by
        cases hh : trim (lineBody l ++ spanClose ++ ['\n']) with
        | nil => exact absurd hh hne
        | cons c cs => rfl
      show (((lineBody l ++ spanClose ++ ['\n']) :: partsOf (l2 :: ls2)).filter
          (fun part => !(trim part).isEmpty)).map
          (fun part => scanColorTokens (stripClose part)) = _
      rw [List.filter_cons_of_pos (by rw [hf]; rfl)]
      rw [List.map_cons]
      rw [stripClose_part l ['\n'] hwfl (fun w hw => by
        rcases List.mem_singleton.mp hw with rfl
        decide)]
      rw [ih (fun x hx => hwf x (List.mem_cons_of_mem l hx))]
      rfl

theorem parseShiki_build (lines : List (List ShikiItem))
    (hwf : ∀ l ∈ lines, ∀ it ∈ l, itemWF it = true) :
    parseShikiHtml (buildShikiHtml lines) =
      lines.map (fun l => scanColorTokens (lineBody l)) := by
  simp only [parseShikiHtml]
  rw [findCode_build lines hwf]
  show ((splitOnSub '<' ("span class=\x22line\x22>".data) (shikiContent lines)).filter
      (fun part => !(trim part).isEmpty)).map
    (fun part => scanColorTokens (stripClose part)) = _
  rw [splitOnSub_content lines hwf]
  rw [List.filter_cons_of_neg (by decide)]
  exact parts_map lines hwf

theorem findCode_none_of_no_infix : ∀ html : Str,
    ¬ ("<code".data <:+: html) → findCode html = none := by
  intro html
  induction html with
  | nil => intro _; rfl
  | cons c rest ih =>
    intro h
    have h1 : tryCodeAt (c :: rest) = none := by
      unfold tryCodeAt
      rw [if_neg]
      intro hp
      exact h (List.isPrefixOf_iff_prefix.mp hp).isInfix
    have h2 : findCode rest = none :=
      ih (fun hi => h (hi.trans (List.suffix_cons c rest).isInfix))
    simp only [findCode]
    rw [h1, h2]

theorem splitFirstVal_cons_pos (p : Char) (ps : Str) (c : Char) (rest : Str)
    (h : (p :: ps).isPrefixOf (c :: rest)) :
    splitFirstVal p ps (c :: rest) = some ([], rest.drop ps.length) := by
  simp only [splitFirstVal, splitFirstSub]
  rw [if_pos h]
  rfl

theorem splitFirstVal_cons_neg (p : Char) (ps : Str) (c : Char) (rest : Str)
    (h : ¬ (p :: ps).isPrefixOf (c :: rest)) :
    splitFirstVal p ps (c :: rest) =
      (splitFirstVal p ps rest).map (fun pr => (c :: pr.1, pr.2)) := by
  simp only [splitFirstVal, splitFirstSub]
  rw [if_neg h]
  cases hs : splitFirstSub p ps rest with
  | none => rfl
  | some pr =>
    obtain ⟨a0, rem0, hlt0⟩ := pr
    rfl

/-- Converse of `splitFirstSub_append`: a successful split decomposes the
input around an occurrence of the pattern, with no occurrence starting inside
the prefix part. -/
theorem splitFirstVal_decomp (p : Char) (ps : Str) :
    ∀ (s x rem : Str), splitFirstVal p ps s = some (x, rem) →
      s = x ++ ((p :: ps) ++ rem) ∧
      ∀ b ∈ x.tails, b ≠ [] → ¬ (p :: ps).isPrefixOf (b ++ ((p :: ps) ++ rem)) := by
  intro s
  induction s with
  | nil =>
    intro x rem h
    exact Option.noConfusion h
  | cons c rest ih =>
    intro x rem h
    by_cases hpre : (p :: ps).isPrefixOf (c :: rest)
    · rw [splitFirstVal_cons_pos p ps c rest hpre, Option.some.injEq, Prod.mk.injEq] at h
      obtain ⟨rfl, rfl⟩ := h
      constructor
      · obtain ⟨r2, hr2⟩ := List.isPrefixOf_iff_prefix.mp hpre
        have hcr : rest = ps ++ r2 := by
          rw [List.cons_append] at hr2
          exact ((List.cons_eq_cons.mp hr2).2).symm
        have hdr : rest.drop ps.length = r2 := by
          rw [hcr, List.drop_left]
        rw [List.nil_append, hdr]
        exact hr2.symm
      · intro b hb hbne
        exact absurd (List.suffix_nil.mp ((List.mem_tails _ _).mp hb)) hbne
    · rw [splitFirstVal_cons_neg p ps c rest hpre] at h
      cases hs : splitFirstVal p ps rest with
      | none =>
        rw [hs] at h
        exact Option.noConfusion h
      | some pr =>
        obtain ⟨a0, rem0⟩ := pr
        rw [hs] at h
        rw [Option.map_some', Option.some.injEq, Prod.mk.injEq] at h
        obtain ⟨rfl, rfl⟩ := h
        obtain ⟨hd, hno⟩ := ih a0 rem0 hs
        constructor
        · rw [List.cons_append, ← hd]
        · intro b hb hbne
          rcases List.suffix_cons_iff.mp ((List.mem_tails _ _).mp hb) with rfl | hb2
          · intro hcon
            apply hpre
            rw [show (c :: a0) ++ ((p :: ps) ++ rem0) =
              c :: (a0 ++ ((p :: ps) ++ rem0)) from rfl, ← hd] at hcon
            exact hcon
          · exact hno b ((List.mem_tails _ _).mpr hb2) hbne

/-- A successful `tryCodeAt` exhibits a complete code region at the front:
`<code`, a `>`-free attribute part, `>`, a body, and `</code>`. -/
theorem tryCodeAt_some_decomp (s content : Str) (h : tryCodeAt s = some content) :
    ∃ a b w : Str,
      s = "<code".data ++ (a ++ ('>' :: (b ++ ("</code>".data ++ w)))) ∧ '>' ∉ a := by
  unfold tryCodeAt at h
  by_cases hpre : "<code".data.isPrefixOf s
  case neg =>
    rw [if_neg hpre] at h
    exact Option.noConfusion h
  rw [if_pos hpre] at h
  obtain ⟨r, hr⟩ := List.isPrefixOf_iff_prefix.mp hpre
  have h5 : ("<code".data ++ r).drop 5 = r := by
    rw [show (5 : Nat) = "<code".data.length by decide]
    exact List.drop_left _ _
  split at h
  next a0 afterGt hprop heq1 =>
    split at h
    next content2 r2 heq2 =>
      rw [Option.some.injEq] at h
      have hv1 : splitFirstVal '>' [] (s.drop 5) = some (a0, afterGt) := by
        simp only [splitFirstVal]
        rw [heq1]
        rfl
      have hv2 : splitFirstVal '<' "/code>".data afterGt = some (content2, r2.val) := by
        simp only [splitFirstVal]
        rw [heq2]
        rfl
      obtain ⟨hd1, hno1⟩ := splitFirstVal_decomp '>' [] (s.drop 5) a0 afterGt hv1
      obtain ⟨hd2, _⟩ := splitFirstVal_decomp '<' "/code>".data afterGt content2 r2.val hv2
      have hr' : r = a0 ++ ('>' :: afterGt) := by
        rw [← hr] at hd1
        rw [h5] at hd1
        simpa using hd1
      refine ⟨a0, content2, r2.val, ?_, ?_⟩
      · rw [← hr, hr']
        exact congrArg (fun X => "<code".data ++ (a0 ++ '>' :: X)) hd2
      · intro hmem
        obtain ⟨u, v, huv⟩ := List.append_of_mem hmem
        refine hno1 ('>' :: v) ((List.mem_tails _ _).mpr ⟨u, huv.symm⟩)
          (List.cons_ne_nil _ _) ?_
        rw [List.isPrefixOf_iff_prefix]
        exact ⟨v ++ (('>' :: []) ++ afterGt), rfl⟩
    next heq2 =>
      exact Option.noConfusion h
  next heq1 =>
    exact Option.noConfusion h

/-- A successful `findCode` exhibits a complete code region somewhere in the
input. -/
theorem findCode_some_decomp : ∀ (html content : Str), findCode html = some content →
    ∃ u a b w : Str,
      html = u ++ ("<code".data ++ (a ++ ('>' :: (b ++ ("</code>".data ++ w))))) ∧
      '>' ∉ a := by
  intro html
  induction html with
  | nil =>
    intro content h
    exact Option.noConfusion h
  | cons c rest ih =>
    intro content h
    simp only [findCode] at h
    cases ht : tryCodeAt (c :: rest) with
    | some content2 =>
      obtain ⟨a, b, w, hdec, hna⟩ := tryCodeAt_some_decomp (c :: rest) content2 ht
      exact ⟨[], a, b, w, by rw [List.nil_append]; exact hdec, hna⟩
    | none =>
      rw [ht] at h
      obtain ⟨u, a, b, w, hdec, hna⟩ := ih content h
      exact ⟨c :: u, a, b, w, by rw [List.cons_append, ← hdec], hna⟩

end Shiki

/-! ## Claim C10 -/

/-- Claim C10: for every input string containing no complete
`<code…>…</code>` region — no decomposition
`u ++ "<code" ++ attrs ++ ">" ++ body ++ "</code>" ++ rest` with a `>`-free
attribute part, the shape the code-region regex requires — `findCode` returns
`none` and `parseShikiHtml` returns the empty list of token lines: the
embedding is total, so inputs with an absent, unterminated or incomplete code
wrapper yield `[]` rather than failing or emitting partial lines. -/
theorem claim_C10 (html : Str)
    (h : ¬ ∃ u a b w : Str,
      html = u ++ ("<code".data ++ (a ++ ('>' :: (b ++ ("</code>".data ++ w))))) ∧
      '>' ∉ a) :
    Shiki.parseShikiHtml html = [] ∧ Shiki.findCode html = none := by
  have hf : Shiki.findCode html = none := by
    cases hfc : Shiki.findCode html with
    | none => rfl
    | some content => exact absurd (Shiki.findCode_some_decomp html content hfc) h
  refine ⟨?_, hf⟩
  simp only [Shiki.parseShikiHtml]
  rw [hf]

/-- Witness for C10 at a concrete code-free document: it contains no `<code`
at all, hence no complete region. -/
theorem claim_C10_witness :
    (¬ ∃ u a b w : Str,
      "<div>no code</div>".data =
        u ++ ("<code".data ++ (a ++ ('>' :: (b ++ ("</code>".data ++ w))))) ∧
      '>' ∉ a) ∧
    (Shiki.parseShikiHtml "<div>no code</div>".data = [] ∧
      Shiki.findCode "<div>no code</div>".data = none) := by
  have hno : ¬ ∃ u a b w : Str,
      "<div>no code</div>".data =
        u ++ ("<code".data ++ (a ++ ('>' :: (b ++ ("</code>".data ++ w))))) ∧
      '>' ∉ a := by
    rintro ⟨u, a, b, w, heq, -⟩
    have hinf : "<code".data <:+: "<div>no code</div>".data :=
      ⟨u, a ++ ('>' :: (b ++ ("</code>".data ++ w))), by rw [heq, List.append_assoc]⟩
    exact absurd hinf (by decide)
  exact ⟨hno, claim_C10 "<div>no code</div>".data hno⟩

/-! ## Claim C2 -/

/-- Claim C2: for every well-formed highlighter markup input — one code
wrapper holding one line-wrapper span per source line, each line a sequence of
color-tagged spans and plain HTML-escaped text (no raw `<` or newline in text,
colors `#` plus 3–8 hex digits), with HTML entities not straddling the
boundaries the parser unescapes separately — mapping `tokenTexts` over
`parseShikiHtml` of the built markup reproduces, line by line and in source
order, the HTML-unescaped text content of each source line. -/
theorem claim_C2 (lines : List (List Shiki.ShikiItem))
    (hwf : ∀ l ∈ lines, ∀ it ∈ l, Shiki.itemWF it = true)
    (hdist : ∀ l ∈ lines, Shiki.unescapeHtml (Shiki.itemTexts l) =
      ((Shiki.linePieces l).map Shiki.unescapeHtml).flatten) :
    (Shiki.parseShikiHtml (Shiki.buildShikiHtml lines)).map Shiki.tokenTexts =
      lines.map (fun l => Shiki.unescapeHtml (Shiki.itemTexts l)) := by
  rw [Shiki.parseShiki_build lines hwf, List.map_map]
  refine List.map_congr_left ?_
  intro l hl
  have h0 : Shiki.tokenTexts (Shiki.scanColorTokens (Shiki.lineBody l)) =
      ((Shiki.linePiecesAux [] l).map Shiki.unescapeHtml).flatten :=
    Shiki.tokens_of_body l [] (List.not_mem_nil '<') (hwf l hl)
  show Shiki.tokenTexts (Shiki.scanColorTokens (Shiki.lineBody l)) = _
  rw [h0, hdist l hl]
  rfl

/-- Witness for C2 at a two-line markup with entities inside a colored span
and inside plain text: the parse reproduces `a & b x` and `<y>`. -/
theorem claim_C2_witness :
    ((∀ l ∈ [[Shiki.ShikiItem.colored "#ff0000".data "a &amp; b".data,
               Shiki.ShikiItem.plain " x".data],
              [Shiki.ShikiItem.plain "&lt;y&gt;".data]],
        ∀ it ∈ l, Shiki.itemWF it = true) ∧
      (∀ l ∈ [[Shiki.ShikiItem.colored "#ff0000".data "a &amp; b".data,
               Shiki.ShikiItem.plain " x".data],
              [Shiki.ShikiItem.plain "&lt;y&gt;".data]],
        Shiki.unescapeHtml (Shiki.itemTexts l) =
          ((Shiki.linePieces l).map Shiki.unescapeHtml).flatten)) ∧
    (Shiki.parseShikiHtml (Shiki.buildShikiHtml
        [[Shiki.ShikiItem.colored "#ff0000".data "a &amp; b".data,
          Shiki.ShikiItem.plain " x".data],
         [Shiki.ShikiItem.plain "&lt;y&gt;".data]])).map Shiki.tokenTexts =
      [[Shiki.ShikiItem.colored "#ff0000".data "a &amp; b".data,
        Shiki.ShikiItem.plain " x".data],
       [Shiki.ShikiItem.plain "&lt;y&gt;".data]].map
        (fun l => Shiki.unescapeHtml (Shiki.itemTexts l)) :=
  ⟨⟨by decide, by with_unfolding_all decide⟩,
    claim_C2 _ (by decide) (by with_unfolding_all decide)⟩

end Deckode
